import Mathlib

/-!
Verification of the MassagePlanner schedule engine.

Shallow embedding conventions:
- All instants are integers counting milliseconds since local midnight of the
  schedule day (the source stores ISO strings and compares them via Date
  objects and lexicographic comparison; for a single day both agree with the
  numeric order on milliseconds).
- Durations are integers counting minutes, exactly as in the source.
- The fallible asynchronous persistence layer is modelled as pure record
  updates: the service functions below mirror the field logic of
  src/services/appointmentService.ts, including the JavaScript truthiness
  test `updates.start_time || updates.duration_minutes` that guards the
  recomputation of the stored end time.
-/

/-- Milliseconds per minute. -/
def msPerMin : Int := 60000

/-- Milliseconds since midnight of a full hour, as produced by setHours(h,0,0,0). -/
def hourMs (h : Int) : Int := h * 3600000

/-- Milliseconds since midnight of h hours and m minutes. -/
def hm (h m : Int) : Int := (h * 60 + m) * 60000

/-- JavaScript Math.round(num/den) for den > 0: round half toward positive infinity. -/
def roundHalfUp (num den : Int) : Int := Int.fdiv (2 * num + den) (2 * den)

/-- calculateEndTime from appointmentService.ts: end = start + duration minutes. -/
def calculateEndTime (startTime : Int) (durationMinutes : Int) : Int :=
  startTime + durationMinutes * msPerMin

/-- Appointment row (types/index.ts); client identity fields are irrelevant to
every claim and omitted, ids are numbers standing for the uuid strings. -/
structure Appointment where
  id : Nat
  start_time : Int
  duration_minutes : Int
  end_time : Int
deriving DecidableEq, Repr

/-- Break row (types/index.ts). -/
structure Break where
  id : Nat
  start_time : Int
  duration_minutes : Int
  end_time : Int
deriving DecidableEq, Repr

/-- A partial update record, as passed to updateAppointment/updateBreak.
A present start_time is always truthy (real ISO strings are non-empty);
a present duration_minutes is truthy iff it is non-zero. -/
structure ItemUpdates where
  start_time : Option Int := none
  duration_minutes : Option Int := none
  end_time : Option Int := none
deriving DecidableEq, Repr

/-- Truthiness of `updates.duration_minutes` (the number 0 is falsy in JS). -/
def jsTruthyDuration : Option Int → Bool
  | none => false
  | some d => d != 0

/-- The `updates.duration_minutes || currentData.duration_minutes` fallback. -/
def jsOrDuration (u : Option Int) (current : Int) : Int :=
  match u with
  | none => current
  | some d => if d != 0 then d else current

/-- Core of updateAppointment/updateBreak in appointmentService.ts: end_time is
recomputed via calculateEndTime only when `updates.start_time ||
updates.duration_minutes` is truthy, and the recomputation reads each input
through the same truthiness fallback. -/
def serviceUpdateFields (start0 dur0 end0 : Int) (u : ItemUpdates) :
    Int × Int × Int :=
  let recompute := u.start_time.isSome || jsTruthyDuration u.duration_minutes
  let newStart := u.start_time.getD start0
  let newDur := u.duration_minutes.getD dur0
  let newEnd :=
    if recompute then
      calculateEndTime (u.start_time.getD start0) (jsOrDuration u.duration_minutes dur0)
    else
      u.end_time.getD end0
  (newStart, newDur, newEnd)

/-- updateAppointment from appointmentService.ts, as a pure row transformer. -/
def updateAppointmentService (a : Appointment) (u : ItemUpdates) : Appointment :=
  let f := serviceUpdateFields a.start_time a.duration_minutes a.end_time u
  { a with start_time := f.1, duration_minutes := f.2.1, end_time := f.2.2 }

/-- updateBreak from appointmentService.ts, as a pure row transformer. -/
def updateBreakService (b : Break) (u : ItemUpdates) : Break :=
  let f := serviceUpdateFields b.start_time b.duration_minutes b.end_time u
  { b with start_time := f.1, duration_minutes := f.2.1, end_time := f.2.2 }

/-- createAppointment from appointmentService.ts: the stored end_time is always
calculateEndTime of the inserted start and duration. -/
def createAppointmentService (id : Nat) (start_time duration_minutes : Int) :
    Appointment :=
  { id := id, start_time := start_time, duration_minutes := duration_minutes,
    end_time := calculateEndTime start_time duration_minutes }

/-- createBreak from appointmentService.ts: the stored end_time is always
calculateEndTime of the inserted start and duration (any end_time supplied by
the caller is overridden on insert). -/
def createBreakService (id : Nat) (start_time duration_minutes : Int) : Break :=
  { id := id, start_time := start_time, duration_minutes := duration_minutes,
    end_time := calculateEndTime start_time duration_minutes }

/-- The derived-end-time invariant of the data model:
end_time = start_time + duration_minutes. -/
def aptWf (a : Appointment) : Prop :=
  a.end_time = a.start_time + a.duration_minutes * msPerMin

/-- The derived-end-time invariant for breaks. -/
def brkWf (b : Break) : Prop :=
  b.end_time = b.start_time + b.duration_minutes * msPerMin

/-- The ScheduleItem union (types/index.ts). The source discriminates the two
variants by the duck-typing test "client_name in item"; here that test is the
constructor tag. -/
inductive ScheduleItem where
  | apt (a : Appointment)
  | brk (b : Break)
deriving DecidableEq, Repr

namespace ScheduleItem

def start_time : ScheduleItem → Int
  | .apt a => a.start_time
  | .brk b => b.start_time

def end_time : ScheduleItem → Int
  | .apt a => a.end_time
  | .brk b => b.end_time

def duration_minutes : ScheduleItem → Int
  | .apt a => a.duration_minutes
  | .brk b => b.duration_minutes

def id : ScheduleItem → Nat
  | .apt a => a.id
  | .brk b => b.id

/-- The duck-typing test `'client_name' in item` used by the bulk-shift handlers. -/
def hasClientName : ScheduleItem → Bool
  | .apt _ => true
  | .brk _ => false

end ScheduleItem


/-- Stable insertion into a list sorted by the key: an element is placed before
the first strictly greater key, after equal keys, matching the stable
Array.prototype.sort used on ISO start_time strings in the source. -/
def insertByStart (key : α → Int) (a : α) : List α → List α
  | [] => [a]
  | b :: l => if key a ≤ key b then a :: b :: l else b :: insertByStart key a l

/-- Stable sort by an integer key; models `[...xs].sort((a, b) =>
a.start_time.localeCompare(b.start_time))`. -/
def sortByStart (key : α → Int) : List α → List α
  | [] => []
  | a :: l => insertByStart key a (sortByStart key l)

/-- Consecutive pairs of a list, as enumerated by the index loop
`for (i = 0; i < sorted.length - 1; i++)` in autoGenerateBreaks. -/
def consecutivePairs : List α → List (α × α)
  | a :: b :: rest => (a, b) :: consecutivePairs (b :: rest)
  | _ => []

/-- appointmentOverlapsAppointment from ScheduleView.tsx: a candidate interval
for the given appointment id collides with some other appointment under the
strict half-open test. -/
def appointmentOverlapsAppointment (appointments : List Appointment)
    (appointmentId : Nat) (newStartTime : Int) (durationMinutes : Int) : Bool :=
  let newEndTime := newStartTime + durationMinutes * msPerMin
  appointments.any (fun apt =>
    apt.id != appointmentId
      && decide (newStartTime < apt.end_time)
      && decide (newEndTime > apt.start_time))

/-- breakOverlapsAny from ScheduleView.tsx: a candidate interval for the given
break id collides with some appointment or some other break. -/
def breakOverlapsAny (appointments : List Appointment) (breaks : List Break)
    (breakId : Nat) (newStartTime : Int) (durationMinutes : Int) : Bool :=
  let newEndTime := newStartTime + durationMinutes * msPerMin
  (appointments.any (fun apt =>
      decide (newStartTime < apt.end_time) && decide (newEndTime > apt.start_time)))
    || (breaks.any (fun brk =>
      brk.id != breakId
        && decide (newStartTime < brk.end_time)
        && decide (newEndTime > brk.start_time)))

/-- canShiftTime from ScheduleView.tsx: bounds test against the 8:00-19:00
window, then the kind-specific overlap test. -/
def canShiftTime (appointments : List Appointment) (breaks : List Break)
    (id : Nat) (minutesShift : Int) : Bool :=
  match appointments.find? (fun a => a.id == id) with
  | some a =>
      let newStartTime := a.start_time + minutesShift * msPerMin
      let newEndTime := newStartTime + a.duration_minutes * msPerMin
      if newStartTime < hourMs 8 then false
      else if newEndTime > hourMs 19 then false
      else !(appointmentOverlapsAppointment appointments id newStartTime a.duration_minutes)
  | none =>
      match breaks.find? (fun b => b.id == id) with
      | some b =>
          let newStartTime := b.start_time + minutesShift * msPerMin
          let newEndTime := newStartTime + b.duration_minutes * msPerMin
          if newStartTime < hourMs 8 then false
          else if newEndTime > hourMs 19 then false
          else !(breakOverlapsAny appointments breaks id newStartTime b.duration_minutes)
      | none => false

/-- Outcome of handleUpdateAppointmentStartTime in ScheduleView.tsx. -/
inductive MoveOutcome where
  | notFound
  | boundsRejected
  | overlapRejected
  | moved (newStart : Int)
deriving DecidableEq, Repr

/-- handleUpdateAppointmentStartTime: bounds are checked first (rejection with
an out-of-window alert), then overlap against other appointments only; on
success the update {start_time := newStart} is committed. -/
def shiftAppointmentOutcome (appointments : List Appointment) (id : Nat)
    (minutesShift : Int) : MoveOutcome :=
  match appointments.find? (fun a => a.id == id) with
  | none => .notFound
  | some a =>
      let newStartTime := a.start_time + minutesShift * msPerMin
      let newEndTime := newStartTime + a.duration_minutes * msPerMin
      if newStartTime < hourMs 8 then .boundsRejected
      else if newEndTime > hourMs 19 then .boundsRejected
      else if appointmentOverlapsAppointment appointments id newStartTime a.duration_minutes
        then .overlapRejected
      else .moved newStartTime

/-- The appointment list after handleUpdateAppointmentStartTime: unchanged on
any rejection, otherwise the item is updated through the persistence service
(which recomputes the stored end_time). -/
def shiftAppointment (appointments : List Appointment) (id : Nat)
    (minutesShift : Int) : List Appointment :=
  match shiftAppointmentOutcome appointments id minutesShift with
  | .moved s =>
      appointments.map (fun a =>
        if a.id = id then updateAppointmentService a { start_time := some s } else a)
  | _ => appointments

/-- yToTime from ScheduleView.tsx: converts a pointer position to a wall-clock
time, snapping to 5 minutes and clamping the result into the 8:00-19:00
window. -/
def yToTime (pixelsPerHour startHour : Int) (y containerTop scrollTop : Int) : Int :=
  let relativeY := y - containerTop + scrollTop
  let totalMinutes := 5 * roundHalfUp (relativeY * 12) pixelsPerHour
  let date := hourMs startHour + totalMinutes * msPerMin
  if date < hourMs 8 then hourMs 8
  else if date > hourMs 19 then hourMs 19
  else date

/-- The appointment branch of handleEnd in ScheduleView.tsx: the drag target
time has already been resolved (and clamped) by yToTime; only overlap against
other appointments is checked before committing the update. -/
def dragEndAppointment (appointments : List Appointment) (id : Nat)
    (resolvedTime : Int) : List Appointment :=
  match appointments.find? (fun a => a.id == id) with
  | none => appointments
  | some a =>
      if appointmentOverlapsAppointment appointments id resolvedTime a.duration_minutes
      then appointments
      else appointments.map (fun x =>
        if x.id = id then updateAppointmentService x { start_time := some resolvedTime } else x)

/-- The combined item list sorted by start time, as built at the top of
getTouchingItemsAfter in ScheduleView.tsx. -/
def allItemsSorted (appointments : List Appointment) (breaks : List Break) :
    List ScheduleItem :=
  sortByStart ScheduleItem.start_time
    (appointments.map ScheduleItem.apt ++ breaks.map ScheduleItem.brk)

/-- The while(true) search loop of getTouchingItemsAfter, with explicit fuel;
each iteration appends the first item that starts exactly at the current chain
end and is not yet in the chain. The loop of the source terminates because
each step consumes one of the finitely many items; fuel = number of items is
always enough. -/
def touchingAfterAux (allItems : List ScheduleItem) :
    Nat → List ScheduleItem → Int → List ScheduleItem
  | 0, chain, _ => chain
  | fuel + 1, chain, currentEnd =>
      match allItems.find? (fun item =>
          item.start_time == currentEnd && !(decide (item ∈ chain))) with
      | none => chain
      | some item => touchingAfterAux allItems fuel (chain ++ [item]) item.end_time

/-- getTouchingItemsAfter from ScheduleView.tsx. -/
def getTouchingItemsAfter (appointments : List Appointment) (breaks : List Break)
    (appointmentId : Nat) : List ScheduleItem :=
  match appointments.find? (fun a => a.id == appointmentId) with
  | none => []
  | some a =>
      let allItems := allItemsSorted appointments breaks
      touchingAfterAux allItems allItems.length [ScheduleItem.apt a] a.end_time

/-- canBulkShiftAfter from ScheduleView.tsx: every member of the touching chain
is checked against the 7:00-24:00 window only; no overlap test is performed. -/
def canBulkShiftAfter (appointments : List Appointment) (breaks : List Break)
    (appointmentId : Nat) (minutesShift : Int) : Bool :=
  match appointments.find? (fun a => a.id == appointmentId) with
  | none => false
  | some _ =>
      (getTouchingItemsAfter appointments breaks appointmentId).all (fun item =>
        let newStartTime := item.start_time + minutesShift * msPerMin
        let newEndTime := newStartTime + item.duration_minutes * msPerMin
        !(decide (newStartTime < hourMs 7)) && !(decide (newEndTime > hourMs 24)))

/-- One start_time update emitted by handleBulkShiftAfter; the Boolean records
the duck-typed branch taken (true = appointment update, false = break update). -/
structure ShiftMut where
  isAppointment : Bool
  id : Nat
  newStart : Int
deriving DecidableEq, Repr

/-- The update emitted for one chain member shifted by the given minutes. -/
def shiftMutOf (minutesShift : Int) (item : ScheduleItem) : ShiftMut :=
  { isAppointment := item.hasClientName, id := item.id,
    newStart := item.start_time + minutesShift * msPerMin }

/-- handleBulkShiftAfter from ScheduleView.tsx, as the list of updates it
emits: nothing when the anchor is missing or the window check fails, otherwise
one start_time update per chain member, issued in reverse chain order. -/
def handleBulkShiftAfterMuts (appointments : List Appointment) (breaks : List Break)
    (appointmentId : Nat) (minutesShift : Int) : List ShiftMut :=
  match appointments.find? (fun a => a.id == appointmentId) with
  | none => []
  | some _ =>
      if canBulkShiftAfter appointments breaks appointmentId minutesShift then
        ((getTouchingItemsAfter appointments breaks appointmentId).reverse).map
          (shiftMutOf minutesShift)
      else []

/-- Applying the emitted bulk-shift updates to the appointment list through the
persistence service. -/
def applyShiftMutsApts (muts : List ShiftMut) (appointments : List Appointment) :
    List Appointment :=
  muts.foldl (fun apts m =>
    if m.isAppointment then
      apts.map (fun a =>
        if a.id = m.id then updateAppointmentService a { start_time := some m.newStart } else a)
    else apts) appointments

/-- Strict half-open interval overlap on stored fields, the no-overlap
invariant P1 is stated with this test. -/
def intervalsOverlap (s1 e1 s2 e2 : Int) : Bool :=
  decide (s1 < e2) && decide (e1 > s2)

/-- No two distinct appointments of the list overlap (strict half-open test on
their stored intervals). -/
def noAptOverlap (appointments : List Appointment) : Prop :=
  appointments.Pairwise (fun a b =>
    intervalsOverlap a.start_time a.end_time b.start_time b.end_time = false)

/-- Gap threshold of autoGenerateBreaks: 30 minutes, in milliseconds. -/
def gapThresholdMs : Int := 30 * 60000

/-- Appointments sorted by start time at the top of autoGenerateBreaks. -/
def sortedAppointments (appointments : List Appointment) : List Appointment :=
  sortByStart Appointment.start_time appointments

/-- The gap test `gapMinutes > 0 && gapMinutes <= 30` of autoGenerateBreaks,
expressed on the millisecond difference (gapMinutes = gapMs / 60000 as a real
number, so the two phrasings agree exactly). -/
def legitimatePair (p : Appointment × Appointment) : Bool :=
  let gapMs := p.2.start_time - p.1.end_time
  decide (0 < gapMs) && decide (gapMs ≤ gapThresholdMs)

/-- The legitimate gaps, as (prev.end_time, next.start_time) intervals, in the
order the pair loop of autoGenerateBreaks visits them. -/
def legitGaps (appointments : List Appointment) : List (Int × Int) :=
  (((consecutivePairs (sortedAppointments appointments)).filter legitimatePair).map
    (fun p => (p.1.end_time, p.2.start_time)))

/-- The break-overlaps-gap filter of autoGenerateBreaks: the break starts
within the gap, or ends within the gap, or completely spans it. -/
def overlapsGapB (currentEnd nextStart : Int) (b : Break) : Bool :=
  (decide (currentEnd ≤ b.start_time) && decide (b.start_time < nextStart))
    || (decide (currentEnd < b.end_time) && decide (b.end_time ≤ nextStart))
    || (decide (b.start_time < currentEnd) && decide (nextStart < b.end_time))

/-- Math.floor(gapMinutes): the target duration of the break covering a gap of
gapMs milliseconds. -/
def floorGapMinutes (gapMs : Int) : Int := Int.fdiv gapMs 60000

/-- A break creation emitted by autoGenerateBreaks (id is assigned on insert). -/
structure BreakCreate where
  start_time : Int
  duration_minutes : Int
  end_time : Int
deriving DecidableEq, Repr

/-- A break update emitted by autoGenerateBreaks. -/
structure BreakUpdate where
  id : Nat
  start_time : Int
  duration_minutes : Int
deriving DecidableEq, Repr

/-- The breaksToCreate list of autoGenerateBreaks: for each legitimate gap with
no overlapping break, a new break spanning the full gap (duration =
Math.floor(gapMinutes), end = currentEnd + gapMinutes minutes = nextStart). -/
def breaksToCreate (appointments : List Appointment) (latestBreaks : List Break) :
    List BreakCreate :=
  (legitGaps appointments).filterMap (fun g =>
    match latestBreaks.find? (overlapsGapB g.1 g.2) with
    | some _ => none
    | none => some
        { start_time := g.1,
          duration_minutes := floorGapMinutes (g.2 - g.1),
          end_time := g.2 })

/-- The breaksToUpdate list of autoGenerateBreaks: for each legitimate gap, the
first overlapping break is stretched to the exact gap unless its start and
duration already match. -/
def breaksToUpdate (appointments : List Appointment) (latestBreaks : List Break) :
    List BreakUpdate :=
  (legitGaps appointments).filterMap (fun g =>
    match latestBreaks.find? (overlapsGapB g.1 g.2) with
    | some b =>
        let targetDuration := floorGapMinutes (g.2 - g.1)
        if b.start_time ≠ g.1 ∨ b.duration_minutes ≠ targetDuration then
          some { id := b.id, start_time := g.1, duration_minutes := targetDuration }
        else none
    | none => none)

/-- The legitimacy test of the deletion pass of autoGenerateBreaks: the break
is fully contained in some consecutive-pair gap with 0 < gap <= 30 minutes. -/
def isLegitimateBreak (appointments : List Appointment) (b : Break) : Bool :=
  (consecutivePairs (sortedAppointments appointments)).any (fun p =>
    let gapMs := p.2.start_time - p.1.end_time
    decide (0 < gapMs) && decide (gapMs ≤ gapThresholdMs)
      && decide (p.1.end_time ≤ b.start_time)
      && decide (b.end_time ≤ p.2.start_time))

/-- The breaksToDelete list of autoGenerateBreaks: every break that is not
targeted by an update and not legitimate. -/
def breaksToDelete (appointments : List Appointment) (latestBreaks : List Break) :
    List Nat :=
  let breaksBeingUpdated := (breaksToUpdate appointments latestBreaks).map BreakUpdate.id
  (latestBreaks.filter (fun b =>
    !(breaksBeingUpdated.contains b.id) && !(isLegitimateBreak appointments b))).map
    Break.id

/-- One reconciliation pass of autoGenerateBreaks, as the mutation batch it
emits. -/
structure ReconcileOps where
  creates : List BreakCreate
  updates : List BreakUpdate
  deletes : List Nat
deriving DecidableEq, Repr

/-- The mutation batch of one pass of autoGenerateBreaks. -/
def reconcileOps (appointments : List Appointment) (latestBreaks : List Break) :
    ReconcileOps :=
  { creates := breaksToCreate appointments latestBreaks,
    updates := breaksToUpdate appointments latestBreaks,
    deletes := breaksToDelete appointments latestBreaks }

/-- The empty mutation batch. -/
def noReconcileOps : ReconcileOps := { creates := [], updates := [], deletes := [] }

/-- Sequential application of the emitted updates to one break row: each update
whose id matches goes through updateBreakService (which sets the new start and
duration and recomputes the end), later updates overwriting earlier ones,
exactly as the sequential awaits of autoGenerateBreaks do. -/
def applyBreakUpdates (updates : List BreakUpdate) (b : Break) : Break :=
  updates.foldl (fun b u =>
    if u.id = b.id then
      updateBreakService b
        { start_time := some u.start_time, duration_minutes := some u.duration_minutes }
    else b) b

/-- Fresh ids for created breaks: larger than every existing break id. -/
def freshBreakId (latestBreaks : List Break) (k : Nat) : Nat :=
  (latestBreaks.foldr (fun b m => max b.id m) 0) + 1 + k

/-- Insertion of a creation batch with consecutive fresh ids; createBreak
recomputes the stored end_time from the inserted start and duration. -/
def createdBreaksFrom (firstFresh : Nat) : List BreakCreate → List Break
  | [] => []
  | c :: t =>
      createBreakService firstFresh c.start_time c.duration_minutes
        :: createdBreaksFrom (firstFresh + 1) t

/-- The rows inserted for the breaksToCreate batch, with ids fresh over the
existing table. -/
def createdBreaks (appointments : List Appointment) (latestBreaks : List Break) :
    List Break :=
  createdBreaksFrom (freshBreakId latestBreaks 0)
    (breaksToCreate appointments latestBreaks)

/-- The break table after one pass of autoGenerateBreaks has been applied:
updates are applied row by row, deleted ids are removed, created rows are
inserted. -/
def reconcileResult (appointments : List Appointment) (latestBreaks : List Break) :
    List Break :=
  ((latestBreaks.map (applyBreakUpdates (breaksToUpdate appointments latestBreaks))).filter
      (fun b => !((breaksToDelete appointments latestBreaks).contains b.id)))
    ++ createdBreaks appointments latestBreaks

/-- The break list as the next pass fetches it: fetchBreaks orders rows by
start_time ascending. -/
def sortBreaks (breaks : List Break) : List Break :=
  sortByStart Break.start_time breaks

/-- Two passes of autoGenerateBreaks with no edits in between: the mutation
batch the second pass computes on the refetched table. -/
def secondPassOps (appointments : List Appointment) (latestBreaks : List Break) :
    ReconcileOps :=
  reconcileOps appointments (sortBreaks (reconcileResult appointments latestBreaks))

/-- The new duration computed by handleResizeEnd in useResize.ts: the pixel
delta is converted to minutes (Math.round), added to the starting duration,
snapped to a 5-minute multiple (Math.round(x/5)*5), and clamped to at least 5. -/
def resizeNewDuration (pixelsPerHour : Int) (startY startDuration clientY : Int) : Int :=
  let deltaY := clientY - startY
  let deltaMinutes := roundHalfUp (deltaY * 60) pixelsPerHour
  max 5 (5 * roundHalfUp (startDuration + deltaMinutes) 5)

/-- pauseAutoGeneration from useAppointments.ts. -/
def pauseAutoGeneration (counter : Int) : Int := counter + 1

/-- resumeAutoGeneration from useAppointments.ts: Math.max(0, counter - 1). -/
def resumeAutoGeneration (counter : Int) : Int := max 0 (counter - 1)

/-- One pause or resume call. -/
inductive PauseOp where
  | pause
  | resume
deriving DecidableEq, Repr

/-- Running a sequence of pause/resume calls against the counter. -/
def runPauseOps (counter : Int) (ops : List PauseOp) : Int :=
  ops.foldl (fun c op =>
    match op with
    | .pause => pauseAutoGeneration c
    | .resume => resumeAutoGeneration c) counter

/-- autoGenerateBreaks checks the pause counter first and is a no-op while it
is positive. -/
def autoGenerateBreaksGuarded (counter : Int) (appointments : List Appointment)
    (latestBreaks : List Break) : ReconcileOps :=
  if 0 < counter then noReconcileOps else reconcileOps appointments latestBreaks

/-- The guard of the debounced auto-generation effect of useAppointments.ts:
`!isLoading && pauseCounterRef.current === 0 && appointments.length > 1`. -/
def effectSchedulesRun (isLoading : Bool) (counter : Int)
    (numAppointments : Nat) : Bool :=
  !isLoading && counter == 0 && decide (numAppointments > 1)

/-- One firing of the auto-generation effect: when the guard holds, the pending
debounce timer (if any) is cancelled and a fresh timer is scheduled; otherwise
nothing happens. Returns (cancelled timers, pending timer afterwards). -/
def effectRun (isLoading : Bool) (counter : Int) (numAppointments : Nat)
    (pending : Option Nat) (freshTimer : Nat) : List Nat × Option Nat :=
  if effectSchedulesRun isLoading counter numAppointments then
    (pending.toList, some freshTimer)
  else ([], pending)

/-- resumeAutoGeneration triggers a forceRefresh (and with it the effect) only
when the decremented counter has reached zero. -/
def resumeTriggersRefresh (counter : Int) : Bool :=
  resumeAutoGeneration counter == 0

instance (a : Appointment) : Decidable (aptWf a) := by
  unfold aptWf
  infer_instance

instance (b : Break) : Decidable (brkWf b) := by
  unfold brkWf
  infer_instance

instance (appointments : List Appointment) : Decidable (noAptOverlap appointments) := by
  unfold noAptOverlap
  infer_instance

/-- A single-item engine operation on the appointment table: a quick shift by
minutes (handleUpdateAppointmentStartTime) or a drag committed at a resolved
time (the appointment branch of handleEnd; the time has been resolved and
clamped by yToTime). -/
inductive EngineOp where
  | shiftOp (id : Nat) (minutesShift : Int)
  | dragOp (id : Nat) (resolvedTime : Int)
deriving DecidableEq, Repr

/-- Application of one engine operation. -/
def applyEngineOp (appointments : List Appointment) : EngineOp → List Appointment
  | .shiftOp id ms => shiftAppointment appointments id ms
  | .dragOp id t => dragEndAppointment appointments id t

/-- Application of a sequence of engine operations. -/
def applyEngineOps (appointments : List Appointment) (ops : List EngineOp) :
    List Appointment :=
  ops.foldl applyEngineOp appointments

/-- A break row that covers a gap exactly as the reconciler produces it:
start at the gap start, duration floor(gap), end at the gap end. -/
def exactSpanB (g : Int × Int) (b : Break) : Prop :=
  b.start_time = g.1 ∧ b.duration_minutes = floorGapMinutes (g.2 - g.1)
    ∧ b.end_time = g.2

theorem mem_insertByStart (key : α → Int) (a x : α) (l : List α) :
    x ∈ insertByStart key a l ↔ x = a ∨ x ∈ l := by
  induction l with
  | nil => simp [insertByStart]
  | cons b t ih =>
      by_cases h : key a ≤ key b
      · simp [insertByStart, h]
      · simp only [insertByStart, if_neg h, List.mem_cons, ih]
        tauto

theorem mem_sortByStart (key : α → Int) (x : α) (l : List α) :
    x ∈ sortByStart key l ↔ x ∈ l := by
  induction l with
  | nil => simp [sortByStart]
  | cons a t ih => simp [sortByStart, mem_insertByStart, ih]

theorem pairwise_insertByStart (key : α → Int) (a : α) (l : List α)
    (h : l.Pairwise (fun x y => key x ≤ key y)) :
    (insertByStart key a l).Pairwise (fun x y => key x ≤ key y) := by
  induction l with
  | nil => simp [insertByStart]
  | cons b t ih =>
      rcases List.pairwise_cons.mp h with ⟨hb, ht⟩
      by_cases hab : key a ≤ key b
      · rw [insertByStart, if_pos hab]
        refine List.pairwise_cons.mpr ⟨?_, h⟩
        intro x hx
        rcases List.mem_cons.mp hx with rfl | hx
        · exact hab
        · exact le_trans hab (hb x hx)
      · rw [insertByStart, if_neg hab]
        refine List.pairwise_cons.mpr ⟨?_, ih ht⟩
        intro x hx
        rcases (mem_insertByStart key a x t).mp hx with rfl | hx
        · exact le_of_not_le hab
        · exact hb x hx

theorem pairwise_sortByStart (key : α → Int) (l : List α) :
    (sortByStart key l).Pairwise (fun x y => key x ≤ key y) := by
  induction l with
  | nil => simp [sortByStart]
  | cons a t ih => exact pairwise_insertByStart key a _ ih

theorem consecutivePairs_mem {l : List α} {p : α × α}
    (h : p ∈ consecutivePairs l) : p.1 ∈ l ∧ p.2 ∈ l := by
  induction l with
  | nil => simp [consecutivePairs] at h
  | cons a t ih =>
      cases t with
      | nil => simp [consecutivePairs] at h
      | cons b r =>
          rcases List.mem_cons.mp h with rfl | h
          · exact ⟨List.mem_cons_self _ _, List.mem_cons_of_mem _ (List.mem_cons_self _ _)⟩
          · rcases ih h with ⟨h1, h2⟩
            exact ⟨List.mem_cons_of_mem _ h1, List.mem_cons_of_mem _ h2⟩

/-- Along a list sorted by start key, the second component of an earlier
consecutive pair never starts after the first component of a later pair. -/
theorem consecutivePairs_pairwise (key : α → Int) (l : List α)
    (h : l.Pairwise (fun x y => key x ≤ key y)) :
    (consecutivePairs l).Pairwise (fun p q => key p.2 ≤ key q.1) := by
  induction l with
  | nil => simp [consecutivePairs]
  | cons a t ih =>
      cases t with
      | nil => simp [consecutivePairs]
      | cons b r =>
          rcases List.pairwise_cons.mp h with ⟨_, hbt⟩
          refine List.pairwise_cons.mpr ⟨?_, ih hbt⟩
          intro q hq
          have hq1 : q.1 ∈ b :: r := (consecutivePairs_mem hq).1
          rcases List.mem_cons.mp hq1 with h1 | h1
          · exact le_of_eq (congrArg key h1.symm)
          · exact (List.pairwise_cons.mp hbt).1 q.1 h1

/-- C5: the overlap validation treats intervals with the strict half-open test
(s1 < e2 and e1 > s2, so touching endpoints never overlap), and applies the
kind-specific rule: an appointment candidate is compared against the other
appointments only, while a break candidate is compared against all
appointments and the other breaks. -/
theorem C5_overlap_rules (appointments : List Appointment) (breaks : List Break)
    (appointmentId breakId : Nat) (s d : Int) :
    (appointmentOverlapsAppointment appointments appointmentId s d = true ↔
      ∃ apt ∈ appointments, apt.id ≠ appointmentId
        ∧ s < apt.end_time ∧ apt.start_time < s + d * msPerMin)
    ∧ (breakOverlapsAny appointments breaks breakId s d = true ↔
      (∃ apt ∈ appointments, s < apt.end_time ∧ apt.start_time < s + d * msPerMin)
        ∨ ∃ brk ∈ breaks, brk.id ≠ breakId
            ∧ s < brk.end_time ∧ brk.start_time < s + d * msPerMin)
    ∧ (∀ s1 e1 s2 e2 : Int, e1 = s2 ∨ e2 = s1 → intervalsOverlap s1 e1 s2 e2 = false) := by
  refine ⟨?_, ?_, ?_⟩
  · simp [appointmentOverlapsAppointment, List.any_eq_true, Bool.and_eq_true,
      bne_iff_ne, decide_eq_true_iff, and_assoc, Int.lt_iff_add_one_le]
  · simp [breakOverlapsAny, List.any_eq_true, Bool.and_eq_true,
      bne_iff_ne, decide_eq_true_iff, and_assoc]
  · intro s1 e1 s2 e2 h
    rcases h with rfl | rfl
    · simp [intervalsOverlap]
    · simp [intervalsOverlap]

/-- C5 witness: the characterization evaluated at a concrete schedule. -/
theorem C5_overlap_rules_witness :
    appointmentOverlapsAppointment
      [{ id := 2, start_time := hm 10 0, duration_minutes := 30, end_time := hm 10 30 }]
      1 (hm 9 45) 30 = true :=
  (C5_overlap_rules
    [{ id := 2, start_time := hm 10 0, duration_minutes := 30, end_time := hm 10 30 }]
    [] 1 0 (hm 9 45) 30).1.mpr
    ⟨{ id := 2, start_time := hm 10 0, duration_minutes := 30, end_time := hm 10 30 },
      by decide, by decide, by decide, by decide⟩

theorem serviceUpdateFields_derives_end (start0 dur0 end0 : Int) (u : ItemUpdates)
    (h0 : end0 = start0 + dur0 * msPerMin) (hend : u.end_time = none)
    (hdur : u.duration_minutes ≠ some 0) :
    (serviceUpdateFields start0 dur0 end0 u).2.2 =
      (serviceUpdateFields start0 dur0 end0 u).1
        + (serviceUpdateFields start0 dur0 end0 u).2.1 * msPerMin := by
  rcases hs : u.start_time with _ | s <;> rcases hd : u.duration_minutes with _ | d
  · simp [serviceUpdateFields, jsTruthyDuration, jsOrDuration, calculateEndTime,
      hs, hd, hend, h0]
  · have hd0 : d ≠ 0 := by
      intro h
      exact hdur (by simp [hd, h])
    simp [serviceUpdateFields, jsTruthyDuration, jsOrDuration, calculateEndTime,
      hs, hd, hd0]
  · simp [serviceUpdateFields, jsTruthyDuration, jsOrDuration, calculateEndTime,
      hs, hd]
  · have hd0 : d ≠ 0 := by
      intro h
      exact hdur (by simp [hd, h])
    simp [serviceUpdateFields, jsTruthyDuration, jsOrDuration, calculateEndTime,
      hs, hd, hd0]

/-- C8 (amended): creation always stores end_time = start_time + duration via
calculateEndTime, and an update recomputes the stored end_time whenever its
start_time or duration_minutes is present and truthy; since the number 0 is
falsy in JavaScript, the derived-end invariant after an update is guaranteed
only for updates that do not set duration_minutes to 0 (and do not write
end_time directly). -/
theorem C8_derived_end_amended (id : Nat) (s d : Int) (a : Appointment)
    (u : ItemUpdates) (hwf : aptWf a) (hend : u.end_time = none)
    (hdur : u.duration_minutes ≠ some 0) :
    aptWf (createAppointmentService id s d)
    ∧ aptWf (updateAppointmentService a u)
    ∧ (∀ bid : Nat, ∀ bs bd : Int, brkWf (createBreakService bid bs bd))
    ∧ (∀ b : Break, ∀ v : ItemUpdates, brkWf b → v.end_time = none →
        v.duration_minutes ≠ some 0 → brkWf (updateBreakService b v)) := by
  refine ⟨?_, ?_, ?_, ?_⟩
  · simp [aptWf, createAppointmentService, calculateEndTime]
  · exact serviceUpdateFields_derives_end a.start_time a.duration_minutes a.end_time u
      hwf hend hdur
  · intro bid bs bd
    simp [brkWf, createBreakService, calculateEndTime]
  · intro b v hb hve hvd
    exact serviceUpdateFields_derives_end b.start_time b.duration_minutes b.end_time v
      hb hve hvd

/-- C8 witness: a concrete update of start and duration keeps the derived end. -/
theorem C8_derived_end_witness :
    aptWf (updateAppointmentService
      { id := 7, start_time := hm 9 0, duration_minutes := 45, end_time := hm 9 45 }
      { start_time := some (hm 10 0), duration_minutes := some 30 }) :=
  (C8_derived_end_amended 7 0 0
    { id := 7, start_time := hm 9 0, duration_minutes := 45, end_time := hm 9 45 }
    { start_time := some (hm 10 0), duration_minutes := some 30 }
    (by decide) rfl (by decide)).2.1

/-- C8 counterexample: an update that sets duration_minutes to 0 changes the
duration but leaves the stored end_time unrecomputed (the JavaScript
truthiness test `updates.start_time || updates.duration_minutes` treats 0 as
absent), so end_time = start_time + duration_minutes fails after the
mutation. -/
theorem C8_counterexample :
    (updateAppointmentService
        { id := 7, start_time := hm 9 0, duration_minutes := 45, end_time := hm 9 45 }
        { duration_minutes := some 0 })
      = { id := 7, start_time := hm 9 0, duration_minutes := 0, end_time := hm 9 45 }
    ∧ ¬ aptWf (updateAppointmentService
        { id := 7, start_time := hm 9 0, duration_minutes := 45, end_time := hm 9 45 }
        { duration_minutes := some 0 }) := by
  constructor
  · decide
  · decide

theorem mem_legitGaps_bounds (appointments : List Appointment) :
    ∀ g ∈ legitGaps appointments, 0 < g.2 - g.1 ∧ g.2 - g.1 ≤ gapThresholdMs := by
  intro g hg
  unfold legitGaps at hg
  rcases List.mem_map.mp hg with ⟨p, hp, hpg⟩
  have hleg : legitimatePair p = true := List.of_mem_filter hp
  simp only [legitimatePair, Bool.and_eq_true, decide_eq_true_eq] at hleg
  subst hpg
  exact hleg

theorem mem_breaksToCreate_spec (appointments : List Appointment)
    (latestBreaks : List Break) (c : BreakCreate)
    (hc : c ∈ breaksToCreate appointments latestBreaks) :
    ∃ g ∈ legitGaps appointments,
      latestBreaks.find? (overlapsGapB g.1 g.2) = none
      ∧ c = { start_time := g.1,
              duration_minutes := floorGapMinutes (g.2 - g.1),
              end_time := g.2 } := by
  unfold breaksToCreate at hc
  rcases List.mem_filterMap.mp hc with ⟨g, hg, hfg⟩
  refine ⟨g, hg, ?_⟩
  rcases hfind : latestBreaks.find? (overlapsGapB g.1 g.2) with _ | b
  · rw [hfind] at hfg
    dsimp only at hfg
    exact ⟨rfl, (Option.some_inj.mp hfg).symm⟩
  · rw [hfind] at hfg
    simp at hfg

theorem mem_breaksToUpdate_spec (appointments : List Appointment)
    (latestBreaks : List Break) (u : BreakUpdate)
    (hu : u ∈ breaksToUpdate appointments latestBreaks) :
    ∃ g ∈ legitGaps appointments, ∃ b : Break,
      latestBreaks.find? (overlapsGapB g.1 g.2) = some b
      ∧ (b.start_time ≠ g.1 ∨ b.duration_minutes ≠ floorGapMinutes (g.2 - g.1))
      ∧ u = { id := b.id, start_time := g.1,
              duration_minutes := floorGapMinutes (g.2 - g.1) } := by
  unfold breaksToUpdate at hu
  rcases List.mem_filterMap.mp hu with ⟨g, hg, hfg⟩
  refine ⟨g, hg, ?_⟩
  rcases hfind : latestBreaks.find? (overlapsGapB g.1 g.2) with _ | b
  · rw [hfind] at hfg
    simp at hfg
  · rw [hfind] at hfg
    dsimp only at hfg
    by_cases hmis : b.start_time ≠ g.1 ∨ b.duration_minutes ≠ floorGapMinutes (g.2 - g.1)
    · rw [if_pos hmis] at hfg
      exact ⟨b, rfl, hmis, (Option.some_inj.mp hfg).symm⟩
    · rw [if_neg hmis] at hfg
      simp at hfg

theorem floorGapMinutes_nonneg {m : Int} (h : 0 ≤ m) : 0 ≤ floorGapMinutes m :=
  Int.fdiv_nonneg h (by decide)

theorem floorGapMinutes_le_30 {m : Int} (h : m ≤ gapThresholdMs) :
    floorGapMinutes m ≤ 30 := by
  unfold floorGapMinutes
  rw [Int.fdiv_eq_ediv _ (by decide)]
  have h30 : (gapThresholdMs : Int) / 60000 = 30 := by decide
  calc m / 60000 ≤ gapThresholdMs / 60000 := Int.ediv_le_ediv (by decide) h
    _ = 30 := h30

theorem floorGapMinutes_ge {k m : Int} (h : k * 60000 ≤ m) :
    k ≤ floorGapMinutes m := by
  unfold floorGapMinutes
  rw [Int.fdiv_eq_ediv _ (by decide)]
  exact (Int.le_ediv_iff_mul_le (by decide)).mpr h

theorem floorGapMinutes_mul_le {m : Int} :
    floorGapMinutes m * 60000 ≤ m := by
  unfold floorGapMinutes
  rw [Int.fdiv_eq_ediv _ (by decide)]
  exact Int.ediv_mul_le m (by decide)

theorem floorGapMinutes_exact {m : Int} (h : (60000 : Int) ∣ m) :
    floorGapMinutes m * 60000 = m := by
  unfold floorGapMinutes
  rw [Int.fdiv_eq_ediv _ (by decide)]
  exact Int.ediv_mul_cancel h

/-- C9 (amended): the resize commit clamps the new duration to at least 5 and
a multiple of 5; the Gap Reconciler gives every created or stretched break
the duration floor(gap), which is between 0 and 30, and is at least 5 only
when the gap itself is at least 5 minutes long (shorter legitimate gaps
produce breaks shorter than 5 minutes). -/
theorem C9_min_duration_amended (pixelsPerHour startY startDuration clientY : Int)
    (appointments : List Appointment) (latestBreaks : List Break) :
    (5 ≤ resizeNewDuration pixelsPerHour startY startDuration clientY
      ∧ (5 : Int) ∣ resizeNewDuration pixelsPerHour startY startDuration clientY)
    ∧ (∀ c ∈ breaksToCreate appointments latestBreaks,
        0 ≤ c.duration_minutes ∧ c.duration_minutes ≤ 30
          ∧ (5 * msPerMin ≤ c.end_time - c.start_time → 5 ≤ c.duration_minutes))
    ∧ (∀ u ∈ breaksToUpdate appointments latestBreaks,
        ∃ g ∈ legitGaps appointments,
          u.duration_minutes = floorGapMinutes (g.2 - g.1)
            ∧ 0 ≤ u.duration_minutes ∧ u.duration_minutes ≤ 30
            ∧ (5 * msPerMin ≤ g.2 - g.1 → 5 ≤ u.duration_minutes)) := by
  refine ⟨⟨le_max_left 5 _, ?_⟩, ?_, ?_⟩
  · unfold resizeNewDuration
    rcases le_total 5 (5 * roundHalfUp (startDuration + roundHalfUp ((clientY - startY) * 60) pixelsPerHour) 5) with h | h
    · rw [max_eq_right h]
      exact Dvd.intro _ rfl
    · rw [max_eq_left h]
  · intro c hc
    rcases mem_breaksToCreate_spec appointments latestBreaks c hc with ⟨g, hg, _, rfl⟩
    rcases mem_legitGaps_bounds appointments g hg with ⟨hpos, hle⟩
    refine ⟨floorGapMinutes_nonneg (le_of_lt hpos), floorGapMinutes_le_30 hle, ?_⟩
    intro h5
    exact floorGapMinutes_ge (by simpa [msPerMin] using h5)
  · intro u hu
    rcases mem_breaksToUpdate_spec appointments latestBreaks u hu with ⟨g, hg, b, _, _, rfl⟩
    rcases mem_legitGaps_bounds appointments g hg with ⟨hpos, hle⟩
    refine ⟨g, hg, rfl, floorGapMinutes_nonneg (le_of_lt hpos), floorGapMinutes_le_30 hle, ?_⟩
    intro h5
    exact floorGapMinutes_ge (by simpa [msPerMin] using h5)

/-- C9 witness: the amended statement at a concrete resize and schedule. -/
theorem C9_min_duration_witness :
    5 ≤ resizeNewDuration 80 100 45 10
      ∧ (5 : Int) ∣ resizeNewDuration 80 100 45 10 :=
  (C9_min_duration_amended 80 100 45 10
      [{ id := 1, start_time := hm 9 0, duration_minutes := 57, end_time := hm 9 57 }]
      []).1

/-- C9 counterexample: appointments ending 9:57 and starting 10:00 leave a
3-minute gap; the reconciler creates a break of duration 3, below the
5-minute minimum the claim asserts for every reconciler break. -/
theorem C9_counterexample :
    (breaksToCreate
        [{ id := 1, start_time := hm 9 0, duration_minutes := 57, end_time := hm 9 57 },
         { id := 2, start_time := hm 10 0, duration_minutes := 30, end_time := hm 10 30 }]
        []).map BreakCreate.duration_minutes = [3] := by
  decide

/-- C10 (amended): while the pause counter is positive the reconciler is a
no-op; the counter never becomes negative under any pause/resume sequence;
and a resume that brings the counter to zero re-triggers the debounced
effect, which cancels any pending timer and schedules a fresh one, exactly
when loading has finished and more than one appointment exists (with zero or
one appointment the effect does not schedule a pass, even though appointments
may exist). -/
theorem C10_pause_resume_amended (counter c0 c1 c2 : Int) (ops : List PauseOp)
    (appointments : List Appointment) (latestBreaks : List Break)
    (isLoading : Bool) (n freshTimer : Nat) (pending : Option Nat)
    (hc : 0 < counter) (h0 : 0 ≤ c0) :
    autoGenerateBreaksGuarded counter appointments latestBreaks = noReconcileOps
    ∧ 0 ≤ runPauseOps c0 ops
    ∧ (effectSchedulesRun isLoading c1 n = true ↔ (isLoading = false ∧ c1 = 0 ∧ 1 < n))
    ∧ (effectSchedulesRun isLoading c1 n = true →
        effectRun isLoading c1 n pending freshTimer = (pending.toList, some freshTimer))
    ∧ (effectSchedulesRun isLoading c1 n = false →
        effectRun isLoading c1 n pending freshTimer = ([], pending))
    ∧ (resumeTriggersRefresh c2 = true ↔ c2 ≤ 1) := by
  refine ⟨?_, ?_, ?_, ?_, ?_, ?_⟩
  · unfold autoGenerateBreaksGuarded
    rw [if_pos hc]
  · induction ops generalizing c0 with
    | nil => exact h0
    | cons op t ih =>
        cases op with
        | pause =>
            exact ih (c0 + 1) (by omega)
        | resume =>
            exact ih (max 0 (c0 - 1)) (le_max_left 0 _)
  · unfold effectSchedulesRun
    cases isLoading <;> simp
  · intro h
    unfold effectRun
    rw [if_pos h]
  · intro h
    unfold effectRun
    rw [if_neg (by simp [h])]
  · unfold resumeTriggersRefresh resumeAutoGeneration
    simp
    try omega

/-- C10 witness: the amended statement at concrete values. -/
theorem C10_pause_resume_witness :
    autoGenerateBreaksGuarded 2 [] [] = noReconcileOps
    ∧ 0 ≤ runPauseOps 0 [PauseOp.resume, PauseOp.pause] := by
  have h := C10_pause_resume_amended 2 0 0 1 [PauseOp.resume, PauseOp.pause]
    [] [] false 2 7 none (by decide) (by decide)
  exact ⟨h.1, h.2.1⟩

/-- C10 counterexample: with loading finished, the counter at zero, and
exactly one appointment in the schedule (so appointments exist), the
auto-generation effect neither cancels the pending timer nor schedules a
reconciliation pass, because its guard requires appointments.length > 1. -/
theorem C10_counterexample :
    effectSchedulesRun false 0 1 = false
    ∧ effectRun false 0 1 (some 5) 7 = ([], some 5) := by
  constructor
  · decide
  · decide

theorem clampWindow_bounds (d : Int) :
    hourMs 8 ≤ (if d < hourMs 8 then hourMs 8 else if d > hourMs 19 then hourMs 19 else d)
    ∧ (if d < hourMs 8 then hourMs 8 else if d > hourMs 19 then hourMs 19 else d) ≤ hourMs 19 := by
  unfold hourMs
  split_ifs <;> omega

/-- C4 (amended): a shift whose target interval leaves the 8:00-19:00 window
is rejected as a bounds violation and leaves the schedule unchanged (and the
corresponding quick-shift control is disabled); a drag, however, resolves its
pointer position through yToTime, which always clamps the resolved time into
the window, so an out-of-window drag is silently clamped rather than
rejected. -/
theorem C4_bounds_amended (appointments : List Appointment) (breaks : List Break)
    (id : Nat) (minutesShift : Int) (a : Appointment)
    (hfind : appointments.find? (fun x => x.id == id) = some a)
    (hoob : a.start_time + minutesShift * msPerMin < hourMs 8
      ∨ hourMs 19 < a.start_time + minutesShift * msPerMin
          + a.duration_minutes * msPerMin) :
    shiftAppointmentOutcome appointments id minutesShift = MoveOutcome.boundsRejected
    ∧ shiftAppointment appointments id minutesShift = appointments
    ∧ canShiftTime appointments breaks id minutesShift = false
    ∧ (∀ pph sh y ct st : Int,
        hourMs 8 ≤ yToTime pph sh y ct st ∧ yToTime pph sh y ct st ≤ hourMs 19) := by
  have houtcome :
      shiftAppointmentOutcome appointments id minutesShift = MoveOutcome.boundsRejected := by
    unfold shiftAppointmentOutcome
    rw [hfind]
    dsimp only
    rcases hoob with h | h
    · rw [if_pos h]
    · by_cases h1 : a.start_time + minutesShift * msPerMin < hourMs 8
      · rw [if_pos h1]
      · rw [if_neg h1, if_pos (by omega)]
  refine ⟨houtcome, ?_, ?_, ?_⟩
  · unfold shiftAppointment
    rw [houtcome]
  · unfold canShiftTime
    rw [hfind]
    dsimp only
    rcases hoob with h | h
    · rw [if_pos h]
    · by_cases h1 : a.start_time + minutesShift * msPerMin < hourMs 8
      · rw [if_pos h1]
      · rw [if_neg h1, if_pos (by omega)]
  · intro pph sh y ct st
    exact clampWindow_bounds _

/-- C4 witness: shifting the 9:00 appointment back by 120 minutes targets
7:00, outside the 8:00 window start, so the move is rejected and nothing
changes. -/
theorem C4_bounds_witness :
    shiftAppointmentOutcome
        [{ id := 1, start_time := hm 9 0, duration_minutes := 45, end_time := hm 9 45 }]
        1 (-120) = MoveOutcome.boundsRejected
    ∧ shiftAppointment
        [{ id := 1, start_time := hm 9 0, duration_minutes := 45, end_time := hm 9 45 }]
        1 (-120)
      = [{ id := 1, start_time := hm 9 0, duration_minutes := 45, end_time := hm 9 45 }] := by
  have h := C4_bounds_amended
    [{ id := 1, start_time := hm 9 0, duration_minutes := 45, end_time := hm 9 45 }]
    [] 1 (-120)
    { id := 1, start_time := hm 9 0, duration_minutes := 45, end_time := hm 9 45 }
    (by decide) (Or.inl (by decide))
  exact ⟨h.1, h.2.1⟩

/-- C4 counterexample: dragging the 9:00 appointment to a pointer position
that resolves to 6:30 (before the 7:00 or 8:00 window start) is not rejected:
yToTime clamps the resolved time to 8:00 and the drag handler commits the
move, so the appointment does not remain at 9:00. -/
theorem C4_counterexample :
    hourMs 8 + (5 * roundHalfUp ((-750 : Int) * 12) 500) * msPerMin = hm 6 30
    ∧ yToTime 500 8 (-750) 0 0 = hm 8 0
    ∧ dragEndAppointment
        [{ id := 1, start_time := hm 9 0, duration_minutes := 45, end_time := hm 9 45 }]
        1 (yToTime 500 8 (-750) 0 0)
      = [{ id := 1, start_time := hm 8 0, duration_minutes := 45, end_time := hm 8 45 }] := by
  refine ⟨by decide, by decide, by decide⟩

theorem updateBreakService_some_some (b : Break) (s dm : Int) (h : dm ≠ 0) :
    updateBreakService b { start_time := some s, duration_minutes := some dm } =
      { id := b.id, start_time := s, duration_minutes := dm,
        end_time := s + dm * msPerMin } := by
  simp [updateBreakService, serviceUpdateFields, jsOrDuration, jsTruthyDuration,
    calculateEndTime, h]

theorem applyBreakUpdates_nil (b : Break) : applyBreakUpdates [] b = b := rfl

theorem applyBreakUpdates_spec (us : List BreakUpdate) (b : Break)
    (hnz : ∀ u ∈ us, u.duration_minutes ≠ 0) :
    ((∀ u ∈ us, u.id ≠ b.id) ∧ applyBreakUpdates us b = b)
    ∨ (∃ u ∈ us, u.id = b.id ∧ applyBreakUpdates us b =
        { id := b.id, start_time := u.start_time,
          duration_minutes := u.duration_minutes,
          end_time := u.start_time + u.duration_minutes * msPerMin }) := by
  induction us generalizing b with
  | nil => exact Or.inl ⟨by intro u hu; simp at hu, rfl⟩
  | cons u t ih =>
      have hstep : applyBreakUpdates (u :: t) b =
          applyBreakUpdates t
            (if u.id = b.id then
              updateBreakService b
                { start_time := some u.start_time,
                  duration_minutes := some u.duration_minutes }
            else b) := rfl
      by_cases hid : u.id = b.id
      · have hb' : (if u.id = b.id then
              updateBreakService b
                { start_time := some u.start_time,
                  duration_minutes := some u.duration_minutes }
            else b) =
            { id := b.id, start_time := u.start_time,
              duration_minutes := u.duration_minutes,
              end_time := u.start_time + u.duration_minutes * msPerMin } := by
          rw [if_pos hid]
          exact updateBreakService_some_some b u.start_time u.duration_minutes
            (hnz u (List.mem_cons_self u t))
        rw [hstep, hb']
        have ihb := ih
            ({ id := b.id, start_time := u.start_time,
               duration_minutes := u.duration_minutes,
               end_time := u.start_time + u.duration_minutes * msPerMin } : Break)
            (fun v hv => hnz v (List.mem_cons_of_mem u hv))
        rcases ihb with ⟨_, heq⟩ | ⟨v, hv, hvid, heq⟩
        · exact Or.inr ⟨u, List.mem_cons_self u t, hid, heq⟩
        · exact Or.inr ⟨v, List.mem_cons_of_mem u hv, hvid, heq⟩
      · have hb' : (if u.id = b.id then
              updateBreakService b
                { start_time := some u.start_time,
                  duration_minutes := some u.duration_minutes }
            else b) = b := if_neg hid
        rw [hstep, hb']
        rcases ih b (fun v hv => hnz v (List.mem_cons_of_mem u hv)) with ⟨hno, heq⟩ | ⟨v, hv, hvid, heq⟩
        · refine Or.inl ⟨?_, heq⟩
          intro v hv
          rcases List.mem_cons.mp hv with rfl | hv
          · exact hid
          · exact hno v hv
        · exact Or.inr ⟨v, List.mem_cons_of_mem u hv, hvid, heq⟩

theorem isLegitimateBreak_iff (appointments : List Appointment) (b : Break) :
    isLegitimateBreak appointments b = true ↔
      ∃ g ∈ legitGaps appointments, g.1 ≤ b.start_time ∧ b.end_time ≤ g.2 := by
  unfold isLegitimateBreak legitGaps legitimatePair
  simp only [List.any_eq_true, List.mem_map, List.mem_filter, Bool.and_eq_true,
    decide_eq_true_eq]
  constructor
  · rintro ⟨p, hp, ⟨⟨h1, h2⟩, h3⟩, h4⟩
    exact ⟨(p.1.end_time, p.2.start_time), ⟨p, ⟨hp, h1, h2⟩, rfl⟩, h3, h4⟩
  · rintro ⟨g, ⟨p, ⟨hp, h1, h2⟩, hpg⟩, h3, h4⟩
    subst hpg
    exact ⟨p, hp, ⟨⟨h1, h2⟩, h3⟩, h4⟩

theorem mem_createdBreaksFrom {n : Nat} {cs : List BreakCreate} {x : Break}
    (hx : x ∈ createdBreaksFrom n cs) :
    ∃ c ∈ cs, ∃ m : Nat, n ≤ m
      ∧ x = createBreakService m c.start_time c.duration_minutes := by
  induction cs generalizing n with
  | nil => simp [createdBreaksFrom] at hx
  | cons c t ih =>
      rcases List.mem_cons.mp hx with rfl | hx
      · exact ⟨c, List.mem_cons_self c t, n, le_refl n, rfl⟩
      · rcases ih hx with ⟨c', hc', m, hm, hxe⟩
        exact ⟨c', List.mem_cons_of_mem c hc', m, by omega, hxe⟩

theorem mem_createdBreaks_spec (appointments : List Appointment)
    (latestBreaks : List Break) (x : Break)
    (hx : x ∈ createdBreaks appointments latestBreaks) :
    ∃ g ∈ legitGaps appointments,
      x.start_time = g.1
      ∧ x.duration_minutes = floorGapMinutes (g.2 - g.1)
      ∧ x.end_time = g.1 + floorGapMinutes (g.2 - g.1) * msPerMin
      ∧ freshBreakId latestBreaks 0 ≤ x.id := by
  rcases mem_createdBreaksFrom hx with ⟨c, hc, m, hm, hxe⟩
  rcases mem_breaksToCreate_spec appointments latestBreaks c hc with ⟨g, hg, _, hce⟩
  refine ⟨g, hg, ?_, ?_, ?_, ?_⟩ <;>
    simp [hxe, hce, createBreakService, calculateEndTime, hm]

theorem floorGapMinutes_ne_zero {m : Int} (hpos : 0 < m) (hdvd : (60000 : Int) ∣ m) :
    floorGapMinutes m ≠ 0 := by
  intro h
  have := floorGapMinutes_exact hdvd
  rw [h] at this
  omega

theorem breaksToUpdate_dur_ne_zero (appointments : List Appointment)
    (latestBreaks : List Break)
    (hGap : ∀ g ∈ legitGaps appointments, (60000 : Int) ∣ (g.2 - g.1)) :
    ∀ u ∈ breaksToUpdate appointments latestBreaks, u.duration_minutes ≠ 0 := by
  intro u hu
  rcases mem_breaksToUpdate_spec appointments latestBreaks u hu with
    ⟨g, hg, b, _, _, rfl⟩
  exact floorGapMinutes_ne_zero (mem_legitGaps_bounds appointments g hg).1 (hGap g hg)

theorem contains_eq_false_iff {l : List Nat} {x : Nat} :
    l.contains x = false ↔ x ∉ l := by
  simp

theorem mem_reconcileResult_iff (appointments : List Appointment)
    (latestBreaks : List Break) (x : Break) :
    x ∈ reconcileResult appointments latestBreaks ↔
      ((∃ b0 ∈ latestBreaks,
          x = applyBreakUpdates (breaksToUpdate appointments latestBreaks) b0)
        ∧ x.id ∉ breaksToDelete appointments latestBreaks)
      ∨ x ∈ createdBreaks appointments latestBreaks := by
  unfold reconcileResult
  simp only [List.mem_append, List.mem_filter, List.mem_map, Bool.not_eq_true']
  constructor
  · rintro (⟨⟨b0, hb0, hxe⟩, hkeep⟩ | hcr)
    · exact Or.inl ⟨⟨b0, hb0, hxe.symm⟩, contains_eq_false_iff.mp hkeep⟩
    · exact Or.inr hcr
  · rintro (⟨⟨b0, hb0, hxe⟩, hkeep⟩ | hcr)
    · exact Or.inl ⟨⟨b0, hb0, hxe.symm⟩, contains_eq_false_iff.mpr hkeep⟩
    · exact Or.inr hcr

theorem mem_breaksToDelete_of (appointments : List Appointment)
    (latestBreaks : List Break) (b : Break) (hb : b ∈ latestBreaks)
    (hupd : b.id ∉ (breaksToUpdate appointments latestBreaks).map BreakUpdate.id)
    (hleg : isLegitimateBreak appointments b = false) :
    b.id ∈ breaksToDelete appointments latestBreaks := by
  unfold breaksToDelete
  refine List.mem_map.mpr ⟨b, List.mem_filter.mpr ⟨hb, ?_⟩, rfl⟩
  rw [Bool.and_eq_true, hleg]
  exact ⟨by rw [contains_eq_false_iff.mpr hupd]; rfl, rfl⟩

/-- C2 (amended): every existing break that is neither targeted by an update
nor fully contained in some legitimate gap receives a delete; and, provided
every legitimate gap is a whole number of minutes (as holds whenever
appointment times lie on minute boundaries), after the pass every remaining
break is fully contained in some legitimate gap. (For a sub-minute gap the
emitted update sets duration 0, which the persistence layer treats as falsy,
leaving a stale end_time that can stick out of the gap.) -/
theorem C2_orphans_amended (appointments : List Appointment)
    (latestBreaks : List Break)
    (hGap : ∀ g ∈ legitGaps appointments, (60000 : Int) ∣ (g.2 - g.1)) :
    (∀ b ∈ latestBreaks,
        b.id ∉ (breaksToUpdate appointments latestBreaks).map BreakUpdate.id →
        isLegitimateBreak appointments b = false →
        b.id ∈ breaksToDelete appointments latestBreaks)
    ∧ ∀ x ∈ reconcileResult appointments latestBreaks,
        ∃ g ∈ legitGaps appointments, g.1 ≤ x.start_time ∧ x.end_time ≤ g.2 := by
  constructor
  · exact fun b hb h1 h2 => mem_breaksToDelete_of appointments latestBreaks b hb h1 h2
  · intro x hx
    rcases (mem_reconcileResult_iff appointments latestBreaks x).mp hx with
      ⟨⟨b0, hb0, hxb⟩, hkeep⟩ | hcr
    · rcases applyBreakUpdates_spec (breaksToUpdate appointments latestBreaks) b0
          (breaksToUpdate_dur_ne_zero appointments latestBreaks hGap) with
        ⟨hno, heq⟩ | ⟨u, hu, huid, heq⟩
      · have hxeq : x = b0 := hxb.trans heq
        by_cases hleg : isLegitimateBreak appointments b0 = true
        · rcases (isLegitimateBreak_iff appointments b0).mp hleg with ⟨g, hg, h1, h2⟩
          rw [hxeq]
          exact ⟨g, hg, h1, h2⟩
        · exfalso
          apply hkeep
          rw [hxeq]
          refine mem_breaksToDelete_of appointments latestBreaks b0 hb0 ?_
            (Bool.not_eq_true _ ▸ hleg)
          intro hmem
          rcases List.mem_map.mp hmem with ⟨u, hu, hid⟩
          exact hno u hu hid
      · rcases mem_breaksToUpdate_spec appointments latestBreaks u hu with
          ⟨g, hg, bf, hfind, hmis, hueq⟩
        have hfl : floorGapMinutes (g.2 - g.1) * 60000 ≤ g.2 - g.1 := floorGapMinutes_mul_le
        refine ⟨g, hg, ?_, ?_⟩
        · rw [hxb, heq, hueq]
        · rw [hxb, heq, hueq]
          simp only [msPerMin]
          omega
    · rcases mem_createdBreaks_spec appointments latestBreaks x hcr with
        ⟨g, hg, h1, h2, h3, _⟩
      have hfl : floorGapMinutes (g.2 - g.1) * 60000 ≤ g.2 - g.1 := floorGapMinutes_mul_le
      refine ⟨g, hg, le_of_eq h1.symm, ?_⟩
      rw [h3]
      simp only [msPerMin]
      omega

/-- C2 witness: on two whole-minute appointments with a 15-minute gap and no
existing breaks, the single break after the pass lies inside the gap. -/
theorem C2_orphans_witness :
    ∃ g ∈ legitGaps
        [{ id := 1, start_time := hm 9 0, duration_minutes := 45, end_time := hm 9 45 },
         { id := 2, start_time := hm 10 0, duration_minutes := 30, end_time := hm 10 30 }],
      g.1 ≤ (hm 9 45 : Int) ∧ (hm 10 0 : Int) ≤ g.2 :=
  (C2_orphans_amended
    [{ id := 1, start_time := hm 9 0, duration_minutes := 45, end_time := hm 9 45 },
     { id := 2, start_time := hm 10 0, duration_minutes := 30, end_time := hm 10 30 }]
    [] (by decide)).2
    { id := 1, start_time := hm 9 45, duration_minutes := 15, end_time := hm 10 0 }
    (by decide)

/-- C2 counterexample: appointments at 8:30:30 (30 min) and 9:01 (30 min)
leave a legitimate 30-second gap; the overlapping 40-minute break is
stretched by an update with duration floor(0.5) = 0, which the persistence
layer treats as falsy, so the stored end_time stays 9:40:30 and the surviving
break sticks out of every legitimate gap: an orphan break remains after the
pass. -/
theorem C2_counterexample :
    legitGaps
        [{ id := 1, start_time := hm 8 30 + 30000, duration_minutes := 30,
           end_time := hm 9 0 + 30000 },
         { id := 2, start_time := hm 9 1, duration_minutes := 30,
           end_time := hm 9 31 }]
      = [(hm 9 0 + 30000, hm 9 1)]
    ∧ (reconcileResult
        [{ id := 1, start_time := hm 8 30 + 30000, duration_minutes := 30,
           end_time := hm 9 0 + 30000 },
         { id := 2, start_time := hm 9 1, duration_minutes := 30,
           end_time := hm 9 31 }]
        [{ id := 21, start_time := hm 9 0 + 30000, duration_minutes := 40,
           end_time := hm 9 40 + 30000 }]).any
        (fun b => !(isLegitimateBreak
          [{ id := 1, start_time := hm 8 30 + 30000, duration_minutes := 30,
             end_time := hm 9 0 + 30000 },
           { id := 2, start_time := hm 9 1, duration_minutes := 30,
             end_time := hm 9 31 }] b)) = true := by
  constructor
  · decide
  · decide

theorem updateAppointmentService_start (a : Appointment) (s : Int) :
    updateAppointmentService a { start_time := some s } =
      { id := a.id, start_time := s, duration_minutes := a.duration_minutes,
        end_time := s + a.duration_minutes * msPerMin } := by
  simp [updateAppointmentService, serviceUpdateFields, jsOrDuration,
    jsTruthyDuration, calculateEndTime]

theorem find?_eq_of_mem_of_nodup {l : List Appointment} {id : Nat}
    {a b : Appointment} (hnodup : (l.map Appointment.id).Nodup)
    (hfind : l.find? (fun x => x.id == id) = some a)
    (hb : b ∈ l) (hbid : b.id = id) : b = a := by
  have ha : a ∈ l := List.mem_of_find?_eq_some hfind
  have haid : a.id = id := by
    have := List.find?_some hfind
    simpa using this
  exact List.inj_on_of_nodup_map hnodup hb ha (hbid.trans haid.symm)

theorem commitMove_preserves (appointments : List Appointment) (id : Nat)
    (s : Int) (a : Appointment)
    (hfind : appointments.find? (fun x => x.id == id) = some a)
    (hnodup : (appointments.map Appointment.id).Nodup)
    (hno : noAptOverlap appointments)
    (hguard : appointmentOverlapsAppointment appointments id s a.duration_minutes
      = false) :
    noAptOverlap (appointments.map (fun x =>
      if x.id = id then updateAppointmentService x { start_time := some s } else x)) := by
  unfold noAptOverlap
  rw [List.pairwise_map]
  have hids : appointments.Pairwise (fun x y => x.id ≠ y.id) :=
    List.pairwise_map.mp hnodup
  have hcomb := (hno.and hids)
  refine hcomb.imp_of_mem ?_
  intro x y hx hy hxy
  rcases hxy with ⟨hnov, hne⟩
  have hguard' : ∀ apt ∈ appointments, apt.id ≠ id →
      ¬(s < apt.end_time ∧ s + a.duration_minutes * msPerMin > apt.start_time) := by
    intro apt hapt hne' hcon
    have := List.any_eq_false.mp hguard apt hapt
    simp only [Bool.and_eq_true, bne_iff_ne, decide_eq_true_iff, not_and] at this
    exact this ⟨hne', hcon.1⟩ hcon.2
  by_cases hxid : x.id = id <;> by_cases hyid : y.id = id
  · exact absurd (hxid.trans hyid.symm) hne
  · have hxa : x = a := find?_eq_of_mem_of_nodup hnodup hfind hx hxid
    rw [if_pos hxid, if_neg hyid, updateAppointmentService_start]
    have hy' := hguard' y hy (fun h => hyid h)
    subst hxa
    simp only [intervalsOverlap, Bool.and_eq_false_iff, decide_eq_false_iff_not]
    by_cases h1 : s < y.end_time
    · exact Or.inr (fun h2 => hy' ⟨h1, h2⟩)
    · exact Or.inl h1
  · have hya : y = a := find?_eq_of_mem_of_nodup hnodup hfind hy hyid
    rw [if_neg hxid, if_pos hyid, updateAppointmentService_start]
    have hx' := hguard' x hx (fun h => hxid h)
    subst hya
    simp only [intervalsOverlap, Bool.and_eq_false_iff, decide_eq_false_iff_not]
    by_cases h1 : s + y.duration_minutes * msPerMin > x.start_time
    · refine Or.inr ?_
      intro h2
      exact hx' ⟨h2, h1⟩
    · exact Or.inl h1
  · rw [if_neg hxid, if_neg hyid]
    exact hnov

theorem map_update_ids (appointments : List Appointment) (id : Nat) (s : Int) :
    ((appointments.map (fun x =>
        if x.id = id then updateAppointmentService x { start_time := some s } else x)).map
      Appointment.id) = appointments.map Appointment.id := by
  induction appointments with
  | nil => rfl
  | cons a t ih =>
      by_cases h : a.id = id
      · rw [List.map_cons, List.map_cons, if_pos h, updateAppointmentService_start, ih]
        rfl
      · rw [List.map_cons, List.map_cons, if_neg h, ih]
        rfl

theorem shiftAppointmentOutcome_moved {appointments : List Appointment}
    {id : Nat} {minutesShift s : Int}
    (h : shiftAppointmentOutcome appointments id minutesShift = MoveOutcome.moved s) :
    ∃ a, appointments.find? (fun x => x.id == id) = some a
      ∧ s = a.start_time + minutesShift * msPerMin
      ∧ appointmentOverlapsAppointment appointments id s a.duration_minutes = false := by
  unfold shiftAppointmentOutcome at h
  rcases hfind : appointments.find? (fun x => x.id == id) with _ | a
  · rw [hfind] at h
    simp at h
  · rw [hfind] at h
    dsimp only at h
    by_cases h1 : a.start_time + minutesShift * msPerMin < hourMs 8
    · rw [if_pos h1] at h
      simp at h
    · rw [if_neg h1] at h
      by_cases h2 : a.start_time + minutesShift * msPerMin
          + a.duration_minutes * msPerMin > hourMs 19
      · rw [if_pos h2] at h
        simp at h
      · rw [if_neg h2] at h
        by_cases h3 : appointmentOverlapsAppointment appointments id
            (a.start_time + minutesShift * msPerMin) a.duration_minutes = true
        · rw [if_pos h3] at h
          simp at h
        · rw [if_neg h3] at h
          have hs : a.start_time + minutesShift * msPerMin = s := by
            simpa using h
          refine ⟨a, hfind, hs.symm, ?_⟩
          rw [hs] at h3
          exact Bool.not_eq_true _ ▸ h3

theorem shiftAppointment_preserves (appointments : List Appointment) (id : Nat)
    (minutesShift : Int) (hnodup : (appointments.map Appointment.id).Nodup)
    (hno : noAptOverlap appointments) :
    noAptOverlap (shiftAppointment appointments id minutesShift)
    ∧ (shiftAppointment appointments id minutesShift).map Appointment.id
        = appointments.map Appointment.id := by
  rcases h : shiftAppointmentOutcome appointments id minutesShift with _ | _ | _ | s
  · unfold shiftAppointment
    rw [h]
    exact ⟨hno, rfl⟩
  · unfold shiftAppointment
    rw [h]
    exact ⟨hno, rfl⟩
  · unfold shiftAppointment
    rw [h]
    exact ⟨hno, rfl⟩
  · unfold shiftAppointment
    rw [h]
    rcases shiftAppointmentOutcome_moved h with ⟨a, hfind, hs, hguard⟩
    exact ⟨commitMove_preserves appointments id s a hfind hnodup hno hguard,
      map_update_ids appointments id s⟩

theorem dragEndAppointment_preserves (appointments : List Appointment) (id : Nat)
    (resolvedTime : Int) (hnodup : (appointments.map Appointment.id).Nodup)
    (hno : noAptOverlap appointments) :
    noAptOverlap (dragEndAppointment appointments id resolvedTime)
    ∧ (dragEndAppointment appointments id resolvedTime).map Appointment.id
        = appointments.map Appointment.id := by
  unfold dragEndAppointment
  rcases hfind : appointments.find? (fun x => x.id == id) with _ | a
  · rw [hfind]
    exact ⟨hno, rfl⟩
  · rw [hfind]
    dsimp only
    by_cases hg : appointmentOverlapsAppointment appointments id resolvedTime
        a.duration_minutes = true
    · rw [if_pos hg]
      exact ⟨hno, rfl⟩
    · rw [if_neg hg]
      exact ⟨commitMove_preserves appointments id resolvedTime a hfind hnodup hno
          (Bool.not_eq_true _ ▸ hg),
        map_update_ids appointments id resolvedTime⟩

/-- C3 (amended): starting from a schedule whose appointments have distinct
ids and pairwise non-overlapping intervals, any sequence of guarded
single-item operations (quick shift and drag move) preserves pairwise
non-overlap of the appointments. Bulk chain shifts are excluded: they
validate only the operating window, so a bulk shift can land a chain member
on a non-chain appointment (see the counterexample). -/
theorem C3_no_overlap_amended (appointments : List Appointment)
    (ops : List EngineOp) (hnodup : (appointments.map Appointment.id).Nodup)
    (hno : noAptOverlap appointments) :
    noAptOverlap (applyEngineOps appointments ops) := by
  induction ops generalizing appointments with
  | nil => exact hno
  | cons op t ih =>
      have hstep :
          noAptOverlap (applyEngineOp appointments op)
          ∧ (applyEngineOp appointments op).map Appointment.id
              = appointments.map Appointment.id := by
        cases op with
        | shiftOp id ms => exact shiftAppointment_preserves appointments id ms hnodup hno
        | dragOp id t' => exact dragEndAppointment_preserves appointments id t' hnodup hno
      exact ih (applyEngineOp appointments op) (hstep.2 ▸ hnodup) hstep.1

/-- C3 witness: two non-overlapping appointments stay non-overlapping under a
concrete shift and drag sequence. -/
theorem C3_no_overlap_witness :
    noAptOverlap (applyEngineOps
      [{ id := 1, start_time := hm 9 0, duration_minutes := 45, end_time := hm 9 45 },
       { id := 2, start_time := hm 10 0, duration_minutes := 30, end_time := hm 10 30 }]
      [EngineOp.shiftOp 1 10, EngineOp.dragOp 2 (hm 11 0)]) :=
  C3_no_overlap_amended
    [{ id := 1, start_time := hm 9 0, duration_minutes := 45, end_time := hm 9 45 },
     { id := 2, start_time := hm 10 0, duration_minutes := 30, end_time := hm 10 30 }]
    [EngineOp.shiftOp 1 10, EngineOp.dragOp 2 (hm 11 0)]
    (by decide) (by decide)

/-- C3 counterexample: appointments A at 9:00 (45 min, a chain of one) and B
at 10:00 (30 min, not touching A). canBulkShiftAfter accepts a 30-minute
forward bulk shift of A because it checks only the 7:00-24:00 window, and the
emitted update moves A to 9:30-10:15, overlapping B at 10:00: a bulk shift
violates the pairwise no-overlap invariant against a non-chain appointment. -/
theorem C3_counterexample :
    noAptOverlap
      [{ id := 1, start_time := hm 9 0, duration_minutes := 45, end_time := hm 9 45 },
       { id := 2, start_time := hm 10 0, duration_minutes := 30, end_time := hm 10 30 }]
    ∧ canBulkShiftAfter
        [{ id := 1, start_time := hm 9 0, duration_minutes := 45, end_time := hm 9 45 },
         { id := 2, start_time := hm 10 0, duration_minutes := 30, end_time := hm 10 30 }]
        [] 1 30 = true
    ∧ ¬ noAptOverlap (applyShiftMutsApts
        (handleBulkShiftAfterMuts
          [{ id := 1, start_time := hm 9 0, duration_minutes := 45, end_time := hm 9 45 },
           { id := 2, start_time := hm 10 0, duration_minutes := 30, end_time := hm 10 30 }]
          [] 1 30)
        [{ id := 1, start_time := hm 9 0, duration_minutes := 45, end_time := hm 9 45 },
         { id := 2, start_time := hm 10 0, duration_minutes := 30, end_time := hm 10 30 }]) := by
  refine ⟨by decide, by decide, by decide⟩

theorem touchingAfterAux_nodup_sub (allItems : List ScheduleItem) (fuel : Nat)
    (chain : List ScheduleItem) (currentEnd : Int) (hnodup : chain.Nodup) :
    (touchingAfterAux allItems fuel chain currentEnd).Nodup
    ∧ ∀ x ∈ touchingAfterAux allItems fuel chain currentEnd,
        x ∈ chain ∨ x ∈ allItems := by
  induction fuel generalizing chain currentEnd with
  | zero => exact ⟨hnodup, fun x hx => Or.inl hx⟩
  | succ fuel ih =>
      unfold touchingAfterAux
      rcases hfind : allItems.find? (fun item =>
          item.start_time == currentEnd && !(decide (item ∈ chain))) with _ | item
      · rw [hfind]
        exact ⟨hnodup, fun x hx => Or.inl hx⟩
      · rw [hfind]
        have hmem : item ∈ allItems := List.mem_of_find?_eq_some hfind
        have hpred := List.find?_some hfind
        have hnotchain : item ∉ chain := by
          simp only [Bool.and_eq_true] at hpred
          simpa using hpred.2
        have hnodup' : (chain ++ [item]).Nodup := by
          rw [List.nodup_append]
          refine ⟨hnodup, List.nodup_singleton item, ?_⟩
          intro x hx
          simp only [List.mem_singleton]
          intro hxi
          exact hnotchain (hxi ▸ hx)
        rcases ih (chain ++ [item]) item.end_time hnodup' with ⟨h1, h2⟩
        refine ⟨h1, ?_⟩
        intro x hx
        rcases h2 x hx with hx' | hx'
        · rcases List.mem_append.mp hx' with hx'' | hx''
          · exact Or.inl hx''
          · exact Or.inr (List.mem_singleton.mp hx'' ▸ hmem)
        · exact Or.inr hx'

theorem mem_allItemsSorted (appointments : List Appointment) (breaks : List Break)
    (x : ScheduleItem) :
    x ∈ allItemsSorted appointments breaks ↔
      (∃ a ∈ appointments, x = ScheduleItem.apt a)
      ∨ (∃ b ∈ breaks, x = ScheduleItem.brk b) := by
  unfold allItemsSorted
  rw [mem_sortByStart]
  simp only [List.mem_append, List.mem_map]
  constructor
  · rintro (⟨a, ha, rfl⟩ | ⟨b, hb, rfl⟩)
    · exact Or.inl ⟨a, ha, rfl⟩
    · exact Or.inr ⟨b, hb, rfl⟩
  · rintro (⟨a, ha, rfl⟩ | ⟨b, hb, rfl⟩)
    · exact Or.inl ⟨a, ha, rfl⟩
    · exact Or.inr ⟨b, hb, rfl⟩

theorem getTouchingItemsAfter_nodup_sub (appointments : List Appointment)
    (breaks : List Break) (appointmentId : Nat) :
    (getTouchingItemsAfter appointments breaks appointmentId).Nodup
    ∧ ∀ x ∈ getTouchingItemsAfter appointments breaks appointmentId,
        x ∈ allItemsSorted appointments breaks := by
  unfold getTouchingItemsAfter
  rcases hfind : appointments.find? (fun a => a.id == appointmentId) with _ | a
  · rw [hfind]
    exact ⟨List.nodup_nil, by intro x hx; simp at hx⟩
  · rw [hfind]
    have ha : a ∈ appointments := List.mem_of_find?_eq_some hfind
    have haall : ScheduleItem.apt a ∈ allItemsSorted appointments breaks :=
      (mem_allItemsSorted appointments breaks _).mpr (Or.inl ⟨a, ha, rfl⟩)
    dsimp only
    rcases touchingAfterAux_nodup_sub (allItemsSorted appointments breaks)
        (allItemsSorted appointments breaks).length [ScheduleItem.apt a]
        a.end_time (List.nodup_singleton _) with ⟨h1, h2⟩
    refine ⟨h1, ?_⟩
    intro x hx
    rcases h2 x hx with hx' | hx'
    · exact List.mem_singleton.mp hx' ▸ haall
    · exact hx'

theorem shiftMutOf_inj (appointments : List Appointment) (breaks : List Break)
    (minutesShift : Int) (hA : (appointments.map Appointment.id).Nodup)
    (hB : (breaks.map Break.id).Nodup) (x y : ScheduleItem)
    (hx : x ∈ allItemsSorted appointments breaks)
    (hy : y ∈ allItemsSorted appointments breaks)
    (hxy : shiftMutOf minutesShift x = shiftMutOf minutesShift y) : x = y := by
  rcases (mem_allItemsSorted appointments breaks x).mp hx with ⟨ax, hax, rfl⟩ | ⟨bx, hbx, rfl⟩ <;>
    rcases (mem_allItemsSorted appointments breaks y).mp hy with ⟨ay, hay, rfl⟩ | ⟨by', hby, rfl⟩ <;>
    simp only [shiftMutOf, ScheduleItem.hasClientName, ScheduleItem.id,
      ScheduleItem.start_time, ShiftMut.mk.injEq] at hxy
  · exact congrArg ScheduleItem.apt
      (List.inj_on_of_nodup_map hA hax hay hxy.2.1)
  · exact absurd hxy.1 (by decide)
  · exact absurd hxy.1 (by decide)
  · exact congrArg ScheduleItem.brk
      (List.inj_on_of_nodup_map hB hbx hby hxy.2.1)

/-- C6: a bulk shift gathers the touching chain of the anchor, accepts
exactly when every chain member shifted interval stays inside the operating
window (the only validation performed), and is all-or-nothing: a rejected
shift emits no update, an accepted one emits exactly one start_time update
per chain member and nothing else. -/
theorem C6_bulk_all_or_nothing (appointments : List Appointment)
    (breaks : List Break) (appointmentId : Nat) (minutesShift : Int)
    (a : Appointment)
    (hfind : appointments.find? (fun x => x.id == appointmentId) = some a)
    (hA : (appointments.map Appointment.id).Nodup)
    (hB : (breaks.map Break.id).Nodup) :
    (canBulkShiftAfter appointments breaks appointmentId minutesShift = true ↔
      ∀ item ∈ getTouchingItemsAfter appointments breaks appointmentId,
        hourMs 7 ≤ item.start_time + minutesShift * msPerMin
        ∧ item.start_time + minutesShift * msPerMin
            + item.duration_minutes * msPerMin ≤ hourMs 24)
    ∧ (canBulkShiftAfter appointments breaks appointmentId minutesShift = false →
        handleBulkShiftAfterMuts appointments breaks appointmentId minutesShift = [])
    ∧ (canBulkShiftAfter appointments breaks appointmentId minutesShift = true →
        (∀ item ∈ getTouchingItemsAfter appointments breaks appointmentId,
          (handleBulkShiftAfterMuts appointments breaks appointmentId
              minutesShift).count (shiftMutOf minutesShift item) = 1)
        ∧ ∀ m ∈ handleBulkShiftAfterMuts appointments breaks appointmentId minutesShift,
            ∃ item ∈ getTouchingItemsAfter appointments breaks appointmentId,
              m = shiftMutOf minutesShift item) := by
  refine ⟨?_, ?_, ?_⟩
  · unfold canBulkShiftAfter
    rw [hfind]
    dsimp only
    rw [List.all_eq_true]
    constructor
    · intro h item hitem
      have := h item hitem
      simp only [Bool.and_eq_true, Bool.not_eq_true', decide_eq_false_iff_not,
        not_lt] at this
      exact this
    · intro h item hitem
      have := h item hitem
      simp only [Bool.and_eq_true, Bool.not_eq_true', decide_eq_false_iff_not,
        not_lt]
      exact this
  · intro hcan
    unfold handleBulkShiftAfterMuts
    rw [hfind]
    dsimp only
    rw [if_neg (by rw [hcan]; exact Bool.false_ne_true)]
  · intro hcan
    have hmuts : handleBulkShiftAfterMuts appointments breaks appointmentId minutesShift
        = ((getTouchingItemsAfter appointments breaks appointmentId).reverse).map
            (shiftMutOf minutesShift) := by
      unfold handleBulkShiftAfterMuts
      rw [hfind]
      dsimp only
      rw [if_pos hcan]
    rcases getTouchingItemsAfter_nodup_sub appointments breaks appointmentId with
      ⟨hnodup, hsub⟩
    have hmutsnodup : (((getTouchingItemsAfter appointments breaks
        appointmentId).reverse).map (shiftMutOf minutesShift)).Nodup := by
      refine List.Nodup.map_on ?_ (List.nodup_reverse.mpr hnodup)
      intro x hx y hy hxy
      exact shiftMutOf_inj appointments breaks minutesShift hA hB x y
        (hsub x (List.mem_reverse.mp hx)) (hsub y (List.mem_reverse.mp hy)) hxy
    constructor
    · intro item hitem
      rw [hmuts]
      exact List.count_eq_one_of_mem hmutsnodup
        (List.mem_map.mpr ⟨item, List.mem_reverse.mpr hitem, rfl⟩)
    · intro m hm
      rw [hmuts] at hm
      rcases List.mem_map.mp hm with ⟨item, hitem, rfl⟩
      exact ⟨item, List.mem_reverse.mp hitem, rfl⟩

/-- C6 witness: the characterization at a concrete two-appointment chain. -/
theorem C6_bulk_all_or_nothing_witness :
    handleBulkShiftAfterMuts
      [{ id := 1, start_time := hm 9 0, duration_minutes := 45, end_time := hm 9 45 },
       { id := 2, start_time := hm 9 45, duration_minutes := 30, end_time := hm 10 15 }]
      [] 1 (-180) = [] :=
  (C6_bulk_all_or_nothing
    [{ id := 1, start_time := hm 9 0, duration_minutes := 45, end_time := hm 9 45 },
     { id := 2, start_time := hm 9 45, duration_minutes := 30, end_time := hm 10 15 }]
    [] 1 (-180)
    { id := 1, start_time := hm 9 0, duration_minutes := 45, end_time := hm 9 45 }
    (by decide) (by decide) (by decide)).2.1 (by decide)

theorem legitGaps_pairwise_sep (appointments : List Appointment)
    (hA : ∀ a ∈ appointments, a.start_time ≤ a.end_time) :
    (legitGaps appointments).Pairwise (fun g g' => g.2 ≤ g'.1) := by
  unfold legitGaps
  rw [List.pairwise_map]
  refine List.Pairwise.imp_of_mem ?_
      ((consecutivePairs_pairwise Appointment.start_time _
        (pairwise_sortByStart _ _)).filter legitimatePair)
  intro p q hp hq hpq
  have hq1 : q.1 ∈ appointments := by
    have := (consecutivePairs_mem (List.mem_of_mem_filter hq)).1
    exact (mem_sortByStart _ _ _).mp this
  exact le_trans hpq (hA q.1 hq1)

theorem legitGaps_pairwise_lt (appointments : List Appointment)
    (hA : ∀ a ∈ appointments, a.start_time ≤ a.end_time) :
    (legitGaps appointments).Pairwise (fun g g' => g.1 < g'.1) := by
  have hsep := legitGaps_pairwise_sep appointments hA
  refine hsep.imp_of_mem ?_
  intro g g' hg hg' hle
  have hb := (mem_legitGaps_bounds appointments g hg).1
  omega

theorem legitGaps_sep_or (appointments : List Appointment)
    (hA : ∀ a ∈ appointments, a.start_time ≤ a.end_time)
    {g g' : Int × Int} (hg : g ∈ legitGaps appointments)
    (hg' : g' ∈ legitGaps appointments) (hne : g ≠ g') :
    g.2 ≤ g'.1 ∨ g'.2 ≤ g.1 := by
  have hsep := legitGaps_pairwise_sep appointments hA
  have hsym : (legitGaps appointments).Pairwise
      (fun g g' => g.2 ≤ g'.1 ∨ g'.2 ≤ g.1) :=
    hsep.imp_of_mem (fun _ _ h => Or.inl h)
  exact List.Pairwise.forall (fun x y h => h.symm) hsym hg hg' hne

theorem legitGaps_fst_nodup (appointments : List Appointment)
    (hA : ∀ a ∈ appointments, a.start_time ≤ a.end_time) :
    ((legitGaps appointments).map Prod.fst).Nodup := by
  rw [List.nodup_map_iff_inj_on]
  · intro g hg g' hg' heq
    by_contra hne
    rcases legitGaps_sep_or appointments hA hg hg' hne with h | h
    · have h1 := (mem_legitGaps_bounds appointments g hg).1
      have h2 := (mem_legitGaps_bounds appointments g' hg').1
      omega
    · have h1 := (mem_legitGaps_bounds appointments g hg).1
      have h2 := (mem_legitGaps_bounds appointments g' hg').1
      omega
  · have hlt := legitGaps_pairwise_lt appointments hA
    have hne : (legitGaps appointments).Pairwise (fun g g' => g ≠ g') := by
      refine hlt.imp ?_
      intro g g' h heq
      rw [heq] at h
      exact lt_irrefl _ h
    exact hne

theorem overlapsGapB_iff (currentEnd nextStart : Int) (b : Break) :
    overlapsGapB currentEnd nextStart b = true ↔
      ((currentEnd ≤ b.start_time ∧ b.start_time < nextStart)
        ∨ (currentEnd < b.end_time ∧ b.end_time ≤ nextStart)
        ∨ (b.start_time < currentEnd ∧ nextStart < b.end_time)) := by
  unfold overlapsGapB
  simp [Bool.or_eq_true, Bool.and_eq_true, decide_eq_true_iff, or_assoc]

theorem exactSpan_overlaps {g : Int × Int} {b : Break} (hlt : g.1 < g.2)
    (hb : exactSpanB g b) : overlapsGapB g.1 g.2 b = true := by
  rcases hb with ⟨h1, _, _⟩
  rw [overlapsGapB_iff]
  exact Or.inl ⟨le_of_eq h1.symm, by omega⟩

theorem exactSpan_not_overlaps_other {g g' : Int × Int} {b : Break}
    (hltg : g.1 < g.2) (hltg' : g'.1 < g'.2)
    (hsep : g.2 ≤ g'.1 ∨ g'.2 ≤ g.1) (hb : exactSpanB g' b) :
    overlapsGapB g.1 g.2 b = false := by
  rcases hb with ⟨h1, _, h3⟩
  rw [← Bool.not_eq_true, overlapsGapB_iff]
  intro hcon
  rcases hsep with hs | hs <;> rcases hcon with ⟨c1, c2⟩ | ⟨c1, c2⟩ | ⟨c1, c2⟩ <;> omega

theorem contained_overlaps {g : Int × Int} {b : Break} (hlt : g.1 < g.2)
    (hwf : brkWf b) (hdur : 0 ≤ b.duration_minutes)
    (h1 : g.1 ≤ b.start_time) (h2 : b.end_time ≤ g.2) :
    overlapsGapB g.1 g.2 b = true := by
  unfold brkWf at hwf
  rw [overlapsGapB_iff]
  by_cases hcase : b.start_time < g.2
  · exact Or.inl ⟨h1, hcase⟩
  · have hms : msPerMin = 60000 := rfl
    rw [hms] at hwf
    refine Or.inr (Or.inl ⟨?_, h2⟩)
    omega

theorem filter_le_one_eq {α : Type} {l : List α} {p : α → Bool} {x y : α}
    (h : (l.filter p).length ≤ 1) (hx : x ∈ l.filter p) (hy : y ∈ l.filter p) :
    x = y := by
  rcases hf : l.filter p with _ | ⟨z, t⟩
  · rw [hf] at hx
    simp at hx
  · rw [hf] at hx hy h
    have ht : t = [] := by
      simp only [List.length_cons] at h
      exact List.eq_nil_of_length_eq_zero (by omega)
  -- with t = [] both memberships force equality with z
    subst ht
    simp at hx hy
    rw [hx, hy]

theorem find?_eq_some_of_unique {α : Type} {l : List α} {p : α → Bool} {x : α}
    (h : (l.filter p).length ≤ 1) (hx : x ∈ l) (hpx : p x = true) :
    l.find? p = some x := by
  rcases hfind : l.find? p with _ | y
  · exact absurd hpx (List.find?_eq_none.mp hfind x hx)
  · have hy : y ∈ l := List.mem_of_find?_eq_some hfind
    have hpy : p y = true := List.find?_some hfind
    have : y = x := filter_le_one_eq h (List.mem_filter.mpr ⟨hy, hpy⟩)
      (List.mem_filter.mpr ⟨hx, hpx⟩)
    rw [this]

theorem filter_eq_singleton {α : Type} {l : List α} {p : α → Bool} {x : α}
    (hmem : x ∈ l) (hp : p x = true)
    (huniq : ∀ y ∈ l, p y = true → y = x) (hnodup : l.Nodup) :
    l.filter p = [x] := by
  induction l with
  | nil => simp at hmem
  | cons a t ih =>
      rcases List.nodup_cons.mp hnodup with ⟨hat, htnodup⟩
      rcases List.mem_cons.mp hmem with rfl | hmemt
      · rw [List.filter_cons_of_pos hp]
        have ht : t.filter p = [] := by
          rw [List.filter_eq_nil_iff]
          intro y hy hpy
          exact hat ((huniq y (List.mem_cons_of_mem _ hy) hpy) ▸ hy)
        rw [ht]
      · have hax : a ≠ x := by
          intro h
          exact hat (h ▸ hmemt)
        have hpa : ¬ p a = true := by
          intro hpa
          exact hax (huniq a (List.mem_cons_self a t) hpa)
        rw [List.filter_cons_of_neg (by simpa using hpa)]
        exact ih hmemt (fun y hy hpy => huniq y (List.mem_cons_of_mem _ hy) hpy) htnodup

theorem updateBreakService_id (b : Break) (u : ItemUpdates) :
    (updateBreakService b u).id = b.id := rfl

theorem applyBreakUpdates_id (us : List BreakUpdate) (b : Break) :
    (applyBreakUpdates us b).id = b.id := by
  induction us generalizing b with
  | nil => rfl
  | cons u t ih =>
      have hstep : applyBreakUpdates (u :: t) b =
          applyBreakUpdates t
            (if u.id = b.id then
              updateBreakService b
                { start_time := some u.start_time,
                  duration_minutes := some u.duration_minutes }
            else b) := rfl
      rw [hstep]
      by_cases h : u.id = b.id
      · rw [if_pos h, ih]
        rfl
      · rw [if_neg h, ih]

theorem foldr_max_le (latestBreaks : List Break) :
    ∀ b ∈ latestBreaks, b.id ≤ latestBreaks.foldr (fun b m => max b.id m) 0 := by
  induction latestBreaks with
  | nil => intro b hb; simp at hb
  | cons a t ih =>
      intro b hb
      rcases List.mem_cons.mp hb with rfl | hb
      · exact le_max_left _ _
      · exact le_trans (ih b hb) (le_max_right _ _)

theorem createdBreaksFrom_ids_nodup (cs : List BreakCreate) (n : Nat) :
    ((createdBreaksFrom n cs).map Break.id).Nodup
    ∧ ∀ x ∈ createdBreaksFrom n cs, n ≤ x.id := by
  induction cs generalizing n with
  | nil => exact ⟨List.nodup_nil, by intro x hx; simp [createdBreaksFrom] at hx⟩
  | cons c t ih =>
      rcases ih (n + 1) with ⟨h1, h2⟩
      constructor
      · rw [createdBreaksFrom, List.map_cons, List.nodup_cons]
        refine ⟨?_, h1⟩
        intro hmem
        rcases List.mem_map.mp hmem with ⟨x, hx, hxid⟩
        have := h2 x hx
        simp [createBreakService] at hxid
        omega
      · intro x hx
        rcases List.mem_cons.mp hx with rfl | hx
        · simp [createBreakService]
        · exact le_trans (by omega) (h2 x hx)

theorem mem_createdBreaksFrom_intro {cs : List BreakCreate} {c : BreakCreate}
    (hc : c ∈ cs) (n : Nat) :
    ∃ x ∈ createdBreaksFrom n cs,
      x.start_time = c.start_time ∧ x.duration_minutes = c.duration_minutes
        ∧ x.end_time = calculateEndTime c.start_time c.duration_minutes := by
  induction cs generalizing n with
  | nil => simp at hc
  | cons c' t ih =>
      rcases List.mem_cons.mp hc with rfl | hc
      · exact ⟨createBreakService n c.start_time c.duration_minutes,
          List.mem_cons_self _ _, rfl, rfl, rfl⟩
      · rcases ih hc (n + 1) with ⟨x, hx, hxs⟩
        exact ⟨x, List.mem_cons_of_mem _ hx, hxs⟩

theorem createdBreaks_ids_fresh (appointments : List Appointment)
    (latestBreaks : List Break) :
    ∀ x ∈ createdBreaks appointments latestBreaks, ∀ b ∈ latestBreaks, b.id < x.id := by
  intro x hx b hb
  have h2 := (createdBreaksFrom_ids_nodup
    (breaksToCreate appointments latestBreaks) (freshBreakId latestBreaks 0)).2 x hx
  have h3 := foldr_max_le latestBreaks b hb
  unfold freshBreakId at h2
  omega

theorem mem_createdBreaks_exactSpan (appointments : List Appointment)
    (latestBreaks : List Break)
    (hGap : ∀ g ∈ legitGaps appointments, (60000 : Int) ∣ (g.2 - g.1))
    (x : Break) (hx : x ∈ createdBreaks appointments latestBreaks) :
    ∃ g ∈ legitGaps appointments,
      latestBreaks.find? (overlapsGapB g.1 g.2) = none ∧ exactSpanB g x := by
  rcases mem_createdBreaksFrom hx with ⟨c, hc, m, hm, hxe⟩
  rcases mem_breaksToCreate_spec appointments latestBreaks c hc with ⟨g, hg, hfind, hce⟩
  refine ⟨g, hg, hfind, ?_, ?_, ?_⟩ <;>
    subst hxe <;> subst hce <;>
    simp [createBreakService, calculateEndTime, exactSpanB]
  have := floorGapMinutes_exact (hGap g hg)
  have hms : msPerMin = 60000 := rfl
  rw [hms]
  omega

theorem breaksToUpdate_intro (appointments : List Appointment)
    (latestBreaks : List Break) {g : Int × Int} {b : Break}
    (hg : g ∈ legitGaps appointments)
    (hfind : latestBreaks.find? (overlapsGapB g.1 g.2) = some b)
    (hmis : b.start_time ≠ g.1 ∨ b.duration_minutes ≠ floorGapMinutes (g.2 - g.1)) :
    ({ id := b.id, start_time := g.1,
       duration_minutes := floorGapMinutes (g.2 - g.1) } : BreakUpdate)
      ∈ breaksToUpdate appointments latestBreaks := by
  unfold breaksToUpdate
  refine List.mem_filterMap.mpr ⟨g, hg, ?_⟩
  rw [hfind]
  dsimp only
  rw [if_pos hmis]

theorem update_match_of_id (appointments : List Appointment)
    (latestBreaks : List Break)
    (hNodup : (latestBreaks.map Break.id).Nodup)
    {b0 : Break} (hb0 : b0 ∈ latestBreaks) {u : BreakUpdate}
    (hu : u ∈ breaksToUpdate appointments latestBreaks) (hid : u.id = b0.id) :
    ∃ g ∈ legitGaps appointments,
      latestBreaks.find? (overlapsGapB g.1 g.2) = some b0
      ∧ u = { id := b0.id, start_time := g.1,
              duration_minutes := floorGapMinutes (g.2 - g.1) }
      ∧ (b0.start_time ≠ g.1
          ∨ b0.duration_minutes ≠ floorGapMinutes (g.2 - g.1)) := by
  rcases mem_breaksToUpdate_spec appointments latestBreaks u hu with
    ⟨g, hg, bf, hfind, hmis, rfl⟩
  have hbf : bf ∈ latestBreaks := List.mem_of_find?_eq_some hfind
  have hbfb0 : bf = b0 := List.inj_on_of_nodup_map hNodup hbf hb0 hid
  subst hbfb0
  exact ⟨g, hg, hfind, rfl, hmis⟩

theorem notMem_breaksToDelete (appointments : List Appointment)
    (latestBreaks : List Break)
    (hNodup : (latestBreaks.map Break.id).Nodup)
    {b : Break} (hb : b ∈ latestBreaks)
    (h : b.id ∈ (breaksToUpdate appointments latestBreaks).map BreakUpdate.id
      ∨ isLegitimateBreak appointments b = true) :
    b.id ∉ breaksToDelete appointments latestBreaks := by
  intro hdel
  unfold breaksToDelete at hdel
  rcases List.mem_map.mp hdel with ⟨b2, hb2f, hb2id⟩
  rcases List.mem_filter.mp hb2f with ⟨hb2, hcond⟩
  have hb2b : b2 = b := List.inj_on_of_nodup_map hNodup hb2 hb hb2id
  subst hb2b
  rw [Bool.and_eq_true, Bool.not_eq_true', Bool.not_eq_true'] at hcond
  rcases h with h | h
  · rw [contains_eq_false_iff] at hcond
    exact hcond.1 h
  · rw [h] at hcond
    exact absurd hcond.2 (by decide)

theorem mapResult_spec (appointments : List Appointment) (latestBreaks : List Break)
    (hGap : ∀ g ∈ legitGaps appointments, (60000 : Int) ∣ (g.2 - g.1))
    (hB : ∀ b ∈ latestBreaks, brkWf b ∧ 0 ≤ b.duration_minutes)
    (hNodup : (latestBreaks.map Break.id).Nodup)
    (hM2 : ∀ g ∈ legitGaps appointments,
      (latestBreaks.filter (fun b => overlapsGapB g.1 g.2 b)).length ≤ 1)
    {b0 : Break} (hb0 : b0 ∈ latestBreaks)
    (hkeep : b0.id ∉ breaksToDelete appointments latestBreaks) :
    ∃ g ∈ legitGaps appointments,
      exactSpanB g (applyBreakUpdates (breaksToUpdate appointments latestBreaks) b0)
      ∧ latestBreaks.find? (overlapsGapB g.1 g.2) = some b0 := by
  rcases applyBreakUpdates_spec (breaksToUpdate appointments latestBreaks) b0
      (breaksToUpdate_dur_ne_zero appointments latestBreaks hGap) with
    ⟨hno, heq⟩ | ⟨u, hu, huid, heq⟩
  · -- untouched by updates: it must be legitimate, hence already exact
    have hleg : isLegitimateBreak appointments b0 = true := by
      by_contra hleg
      have hnupd : b0.id ∉
          (breaksToUpdate appointments latestBreaks).map BreakUpdate.id := by
        intro hmem
        rcases List.mem_map.mp hmem with ⟨u, hu, hid⟩
        exact hno u hu hid
      exact hkeep (mem_breaksToDelete_of appointments latestBreaks b0 hb0 hnupd
        (Bool.not_eq_true _ ▸ hleg))
    rcases (isLegitimateBreak_iff appointments b0).mp hleg with ⟨g, hg, h1, h2⟩
    have hbounds := mem_legitGaps_bounds appointments g hg
    have hovl : overlapsGapB g.1 g.2 b0 = true :=
      contained_overlaps (by omega) (hB b0 hb0).1 (hB b0 hb0).2 h1 h2
    have hfind : latestBreaks.find? (overlapsGapB g.1 g.2) = some b0 := by
      have hfilter := hM2 g hg
      exact find?_eq_some_of_unique hfilter hb0 hovl
    -- the pair loop found b0 first for gap g; since no update targets b0,
    -- its start and duration already match the gap exactly
    have hnomis : ¬(b0.start_time ≠ g.1
        ∨ b0.duration_minutes ≠ floorGapMinutes (g.2 - g.1)) := by
      intro hmis
      exact hno _ (breaksToUpdate_intro appointments latestBreaks hg hfind hmis) rfl
    push_neg at hnomis
    have hwf := (hB b0 hb0).1
    unfold brkWf at hwf
    refine ⟨g, hg, ⟨?_, ?_, ?_⟩, hfind⟩
    · rw [heq, hnomis.1]
    · rw [heq, hnomis.2]
    · rw [heq, hwf, hnomis.1, hnomis.2]
      have hex := floorGapMinutes_exact (hGap g hg)
      have hms : msPerMin = 60000 := rfl
      rw [hms]
      omega
  · rcases update_match_of_id appointments latestBreaks hNodup hb0 hu huid with
      ⟨g, hg, hfind, hueq, _⟩
    refine ⟨g, hg, ⟨?_, ?_, ?_⟩, hfind⟩
    · rw [heq, hueq]
    · rw [heq, hueq]
    · rw [heq, hueq]
      have hex := floorGapMinutes_exact (hGap g hg)
      have hms : msPerMin = 60000 := rfl
      simp only [hms]
      omega

theorem exactSpan_ovl_same (appointments : List Appointment)
    (hA : ∀ a ∈ appointments, a.start_time ≤ a.end_time)
    {g g' : Int × Int} (hg : g ∈ legitGaps appointments)
    (hg' : g' ∈ legitGaps appointments) {y : Break}
    (hspan : exactSpanB g' y) (hovl : overlapsGapB g.1 g.2 y = true) : g' = g := by
  by_contra hne
  have hbg := (mem_legitGaps_bounds appointments g hg).1
  have hbg' := (mem_legitGaps_bounds appointments g' hg').1
  have hsep := legitGaps_sep_or appointments hA hg hg' (fun h => hne h.symm)
  have := exactSpan_not_overlaps_other (by omega) (by omega) hsep hspan
  rw [hovl] at this
  exact absurd this (by decide)

theorem map_apply_ids (us : List BreakUpdate) (latestBreaks : List Break) :
    ((latestBreaks.map (applyBreakUpdates us)).map Break.id)
      = latestBreaks.map Break.id := by
  induction latestBreaks with
  | nil => rfl
  | cons b t ih =>
      rw [List.map_cons, List.map_cons, applyBreakUpdates_id, ih, List.map_cons]

theorem reconcileResult_nodup (appointments : List Appointment)
    (latestBreaks : List Break)
    (hNodup : (latestBreaks.map Break.id).Nodup) :
    (reconcileResult appointments latestBreaks).Nodup := by
  unfold reconcileResult
  rw [List.nodup_append]
  refine ⟨?_, ?_, ?_⟩
  · refine List.Nodup.filter _ ?_
    refine List.Nodup.of_map Break.id ?_
    rw [map_apply_ids]
    exact hNodup
  · exact List.Nodup.of_map Break.id
      (createdBreaksFrom_ids_nodup (breaksToCreate appointments latestBreaks)
        (freshBreakId latestBreaks 0)).1
  · intro x hx1 hx2
    rcases List.mem_map.mp (List.mem_of_mem_filter hx1) with ⟨b0, hb0, rfl⟩
    have hlt := createdBreaks_ids_fresh appointments latestBreaks _ hx2 b0 hb0
    rw [applyBreakUpdates_id] at hlt
    omega

theorem filterMap_create_starts (latestBreaks : List Break)
    (gs : List (Int × Int)) :
    ((gs.filterMap (fun g =>
        match latestBreaks.find? (overlapsGapB g.1 g.2) with
        | some _ => none
        | none => some ({ start_time := g.1,
                          duration_minutes := floorGapMinutes (g.2 - g.1),
                          end_time := g.2 } : BreakCreate))).map BreakCreate.start_time)
      = ((gs.filter (fun g =>
          (latestBreaks.find? (overlapsGapB g.1 g.2)).isNone)).map Prod.fst) := by
  induction gs with
  | nil => rfl
  | cons g t ih =>
      rcases hf : latestBreaks.find? (overlapsGapB g.1 g.2) with _ | b
      · rw [List.filterMap_cons, List.filter_cons, hf]
        simp [ih]
      · rw [List.filterMap_cons, List.filter_cons, hf]
        simp only [Option.isNone_some]
        rw [if_neg (by simp)]
        exact ih

theorem createdBreaksFrom_starts (cs : List BreakCreate) (n : Nat) :
    ((createdBreaksFrom n cs).map Break.start_time)
      = cs.map BreakCreate.start_time := by
  induction cs generalizing n with
  | nil => rfl
  | cons c t ih =>
      rw [createdBreaksFrom, List.map_cons, List.map_cons, ih]
      rfl

theorem createdBreaks_starts_nodup (appointments : List Appointment)
    (latestBreaks : List Break)
    (hA : ∀ a ∈ appointments, a.start_time ≤ a.end_time) :
    ((createdBreaks appointments latestBreaks).map Break.start_time).Nodup := by
  unfold createdBreaks
  rw [createdBreaksFrom_starts]
  unfold breaksToCreate
  rw [filterMap_create_starts]
  refine List.Nodup.sublist ?_ (legitGaps_fst_nodup appointments hA)
  exact List.Sublist.map Prod.fst (List.filter_sublist _)

theorem breaksToCreate_intro (appointments : List Appointment)
    (latestBreaks : List Break) {g : Int × Int} (hg : g ∈ legitGaps appointments)
    (hfind : latestBreaks.find? (overlapsGapB g.1 g.2) = none) :
    ({ start_time := g.1, duration_minutes := floorGapMinutes (g.2 - g.1),
       end_time := g.2 } : BreakCreate) ∈ breaksToCreate appointments latestBreaks := by
  unfold breaksToCreate
  refine List.mem_filterMap.mpr ⟨g, hg, ?_⟩
  rw [hfind]

theorem reconcileResult_filter_singleton (appointments : List Appointment)
    (latestBreaks : List Break)
    (hA : ∀ a ∈ appointments, a.start_time ≤ a.end_time)
    (hGap : ∀ g ∈ legitGaps appointments, (60000 : Int) ∣ (g.2 - g.1))
    (hB : ∀ b ∈ latestBreaks, brkWf b ∧ 0 ≤ b.duration_minutes)
    (hNodup : (latestBreaks.map Break.id).Nodup)
    (hM1 : ∀ b ∈ latestBreaks,
      ((legitGaps appointments).filter (fun g => overlapsGapB g.1 g.2 b)).length ≤ 1)
    (hM2 : ∀ g ∈ legitGaps appointments,
      (latestBreaks.filter (fun b => overlapsGapB g.1 g.2 b)).length ≤ 1) :
    ∀ g ∈ legitGaps appointments, ∃ x : Break,
      (reconcileResult appointments latestBreaks).filter
          (fun b => overlapsGapB g.1 g.2 b) = [x]
      ∧ exactSpanB g x := by
  intro g hg
  have hbounds := mem_legitGaps_bounds appointments g hg
  have hnodupR := reconcileResult_nodup appointments latestBreaks hNodup
  rcases hfind : latestBreaks.find? (overlapsGapB g.1 g.2) with _ | bf
  · -- no overlapping break: the pass creates the covering break
    have hc := breaksToCreate_intro appointments latestBreaks hg hfind
    rcases mem_createdBreaksFrom_intro hc (freshBreakId latestBreaks 0) with
      ⟨x, hxmem, hxs, hxd, hxe⟩
    have hxmem' : x ∈ createdBreaks appointments latestBreaks := hxmem
    have hxspan : exactSpanB g x := by
      refine ⟨hxs, hxd, ?_⟩
      rw [hxe]
      unfold calculateEndTime
      have hfl := floorGapMinutes_exact (hGap g hg)
      have hms : msPerMin = 60000 := rfl
      rw [hms]
      show g.1 + floorGapMinutes (g.2 - g.1) * 60000 = g.2
      omega
    have hxres : x ∈ reconcileResult appointments latestBreaks :=
      (mem_reconcileResult_iff appointments latestBreaks x).mpr (Or.inr hxmem')
    refine ⟨x, filter_eq_singleton hxres
      (exactSpan_overlaps (by omega) hxspan) ?_ hnodupR, hxspan⟩
    intro y hy hovly
    rcases (mem_reconcileResult_iff appointments latestBreaks y).mp hy with
      ⟨⟨b0, hb0, rfl⟩, hkeep⟩ | hycr
    · rw [applyBreakUpdates_id] at hkeep
      rcases mapResult_spec appointments latestBreaks hGap hB hNodup hM2 hb0 hkeep
        with ⟨gy, hgy, hspany, hfindy⟩
      have hgyg : gy = g := exactSpan_ovl_same appointments hA hg hgy hspany hovly
      rw [hgyg, hfind] at hfindy
      exact absurd hfindy (by simp)
    · rcases mem_createdBreaks_exactSpan appointments latestBreaks hGap y hycr with
        ⟨gy, hgy, _, hspany⟩
      have hgyg : gy = g := exactSpan_ovl_same appointments hA hg hgy hspany hovly
      refine List.inj_on_of_nodup_map
        (createdBreaks_starts_nodup appointments latestBreaks hA) hycr hxmem' ?_
      rw [hspany.1, hxspan.1, hgyg]
  · -- the first overlapping break is stretched (or already exact)
    have hbf : bf ∈ latestBreaks := List.mem_of_find?_eq_some hfind
    have hbfovl : overlapsGapB g.1 g.2 bf = true := List.find?_some hfind
    have hkeepbf : bf.id ∉ breaksToDelete appointments latestBreaks := by
      by_cases hmis : bf.start_time ≠ g.1
          ∨ bf.duration_minutes ≠ floorGapMinutes (g.2 - g.1)
      · exact notMem_breaksToDelete appointments latestBreaks hNodup hbf
          (Or.inl (List.mem_map.mpr
            ⟨_, breaksToUpdate_intro appointments latestBreaks hg hfind hmis, rfl⟩))
      · push_neg at hmis
        refine notMem_breaksToDelete appointments latestBreaks hNodup hbf (Or.inr ?_)
        rw [isLegitimateBreak_iff]
        refine ⟨g, hg, le_of_eq hmis.1.symm, ?_⟩
        have hwf := (hB bf hbf).1
        unfold brkWf at hwf
        have hfl := floorGapMinutes_exact (hGap g hg)
        have hms : msPerMin = 60000 := rfl
        rw [hwf, hmis.1, hmis.2, hms]
        omega
    rcases mapResult_spec appointments latestBreaks hGap hB hNodup hM2 hbf hkeepbf
      with ⟨gx, hgx, hspanx, hfindx⟩
    have hgxg : gx = g := by
      refine filter_le_one_eq (hM1 bf hbf)
        (List.mem_filter.mpr ⟨hgx, List.find?_some hfindx⟩)
        (List.mem_filter.mpr ⟨hg, hbfovl⟩)
    rw [hgxg] at hspanx
    have hxres : applyBreakUpdates (breaksToUpdate appointments latestBreaks) bf
        ∈ reconcileResult appointments latestBreaks := by
      refine (mem_reconcileResult_iff appointments latestBreaks _).mpr
        (Or.inl ⟨⟨bf, hbf, rfl⟩, ?_⟩)
      rw [applyBreakUpdates_id]
      exact hkeepbf
    refine ⟨_, filter_eq_singleton hxres
      (exactSpan_overlaps (by omega) hspanx) ?_ hnodupR, hspanx⟩
    intro y hy hovly
    rcases (mem_reconcileResult_iff appointments latestBreaks y).mp hy with
      ⟨⟨b0, hb0, rfl⟩, hkeep⟩ | hycr
    · rw [applyBreakUpdates_id] at hkeep
      rcases mapResult_spec appointments latestBreaks hGap hB hNodup hM2 hb0 hkeep
        with ⟨gy, hgy, hspany, hfindy⟩
      have hgyg : gy = g := exactSpan_ovl_same appointments hA hg hgy hspany hovly
      rw [hgyg, hfind] at hfindy
      rw [Option.some_inj.mp hfindy]
    · rcases mem_createdBreaks_exactSpan appointments latestBreaks hGap y hycr with
        ⟨gy, hgy, hfindy, hspany⟩
      have hgyg : gy = g := exactSpan_ovl_same appointments hA hg hgy hspany hovly
      rw [hgyg, hfind] at hfindy
      exact absurd hfindy (by simp)

theorem reconcileResult_exactSpan (appointments : List Appointment)
    (latestBreaks : List Break)
    (hGap : ∀ g ∈ legitGaps appointments, (60000 : Int) ∣ (g.2 - g.1))
    (hB : ∀ b ∈ latestBreaks, brkWf b ∧ 0 ≤ b.duration_minutes)
    (hNodup : (latestBreaks.map Break.id).Nodup)
    (hM2 : ∀ g ∈ legitGaps appointments,
      (latestBreaks.filter (fun b => overlapsGapB g.1 g.2 b)).length ≤ 1) :
    ∀ x ∈ reconcileResult appointments latestBreaks,
      ∃ g ∈ legitGaps appointments, exactSpanB g x := by
  intro x hx
  rcases (mem_reconcileResult_iff appointments latestBreaks x).mp hx with
    ⟨⟨b0, hb0, rfl⟩, hkeep⟩ | hxcr
  · rw [applyBreakUpdates_id] at hkeep
    rcases mapResult_spec appointments latestBreaks hGap hB hNodup hM2 hb0 hkeep
      with ⟨g, hg, hspan, _⟩
    exact ⟨g, hg, hspan⟩
  · rcases mem_createdBreaks_exactSpan appointments latestBreaks hGap x hxcr with
      ⟨g, hg, _, hspan⟩
    exact ⟨g, hg, hspan⟩

/-- C1 (amended): on a snapshot whose appointments have nonnegative extent,
whose legitimate gaps are whole minutes, whose break rows are well-formed with
distinct ids, and in which each break overlaps at most one legitimate gap and
each legitimate gap is overlapped by at most one break, the pass leaves
exactly one break overlapping each legitimate gap, starting at the gap start
with duration floor(gap) (the first overlapping break stretched, or a new
break created). With several breaks overlapping one gap the claim fails: the
extra contained breaks survive the pass (see the counterexample). -/
theorem C1_gap_coverage_amended (appointments : List Appointment)
    (latestBreaks : List Break)
    (hA : ∀ a ∈ appointments, a.start_time ≤ a.end_time)
    (hGap : ∀ g ∈ legitGaps appointments, (60000 : Int) ∣ (g.2 - g.1))
    (hB : ∀ b ∈ latestBreaks, brkWf b ∧ 0 ≤ b.duration_minutes)
    (hNodup : (latestBreaks.map Break.id).Nodup)
    (hM1 : ∀ b ∈ latestBreaks,
      ((legitGaps appointments).filter (fun g => overlapsGapB g.1 g.2 b)).length ≤ 1)
    (hM2 : ∀ g ∈ legitGaps appointments,
      (latestBreaks.filter (fun b => overlapsGapB g.1 g.2 b)).length ≤ 1) :
    ∀ g ∈ legitGaps appointments, ∃ x : Break,
      (reconcileResult appointments latestBreaks).filter
          (fun b => overlapsGapB g.1 g.2 b) = [x]
      ∧ x.start_time = g.1
      ∧ x.duration_minutes = floorGapMinutes (g.2 - g.1)
      ∧ x.end_time = g.2 := by
  intro g hg
  rcases reconcileResult_filter_singleton appointments latestBreaks hA hGap hB
    hNodup hM1 hM2 g hg with ⟨x, hfilter, h1, h2, h3⟩
  exact ⟨x, hfilter, h1, h2, h3⟩

/-- C1 witness: two appointments with a 15-minute gap and one short break in
it; the pass leaves exactly one break spanning 9:45-10:00. -/
theorem C1_gap_coverage_witness :
    ∃ x : Break,
      (reconcileResult
          [{ id := 1, start_time := hm 9 0, duration_minutes := 45, end_time := hm 9 45 },
           { id := 2, start_time := hm 10 0, duration_minutes := 30, end_time := hm 10 30 }]
          [{ id := 11, start_time := hm 9 45, duration_minutes := 5, end_time := hm 9 50 }]).filter
          (fun b => overlapsGapB (hm 9 45) (hm 10 0) b) = [x]
      ∧ x.start_time = hm 9 45
      ∧ x.duration_minutes = floorGapMinutes (hm 10 0 - hm 9 45)
      ∧ x.end_time = hm 10 0 :=
  C1_gap_coverage_amended
    [{ id := 1, start_time := hm 9 0, duration_minutes := 45, end_time := hm 9 45 },
     { id := 2, start_time := hm 10 0, duration_minutes := 30, end_time := hm 10 30 }]
    [{ id := 11, start_time := hm 9 45, duration_minutes := 5, end_time := hm 9 50 }]
    (by decide) (by decide) (by decide) (by decide) (by decide) (by decide)
    (hm 9 45, hm 10 0) (by decide)

/-- C1 counterexample: with two disjoint breaks already inside the 9:45-10:00
gap, the pass stretches the first to cover the gap and keeps the second
(contained, hence legitimate), so two breaks overlap the gap afterwards,
refuting exactly-one. -/
theorem C1_counterexample :
    legitGaps
        [{ id := 1, start_time := hm 9 0, duration_minutes := 45, end_time := hm 9 45 },
         { id := 2, start_time := hm 10 0, duration_minutes := 30, end_time := hm 10 30 }]
      = [(hm 9 45, hm 10 0)]
    ∧ ((reconcileResult
        [{ id := 1, start_time := hm 9 0, duration_minutes := 45, end_time := hm 9 45 },
         { id := 2, start_time := hm 10 0, duration_minutes := 30, end_time := hm 10 30 }]
        [{ id := 11, start_time := hm 9 45, duration_minutes := 5, end_time := hm 9 50 },
         { id := 12, start_time := hm 9 52, duration_minutes := 3, end_time := hm 9 55 }]).filter
        (fun b => overlapsGapB (hm 9 45) (hm 10 0) b)).length = 2 := by
  constructor
  · decide
  · decide

theorem sortBreaks_find?_exact (appointments : List Appointment)
    (latestBreaks : List Break)
    (hA : ∀ a ∈ appointments, a.start_time ≤ a.end_time)
    (hGap : ∀ g ∈ legitGaps appointments, (60000 : Int) ∣ (g.2 - g.1))
    (hB : ∀ b ∈ latestBreaks, brkWf b ∧ 0 ≤ b.duration_minutes)
    (hNodup : (latestBreaks.map Break.id).Nodup)
    (hM1 : ∀ b ∈ latestBreaks,
      ((legitGaps appointments).filter (fun g => overlapsGapB g.1 g.2 b)).length ≤ 1)
    (hM2 : ∀ g ∈ legitGaps appointments,
      (latestBreaks.filter (fun b => overlapsGapB g.1 g.2 b)).length ≤ 1) :
    ∀ g ∈ legitGaps appointments, ∃ x : Break,
      (sortBreaks (reconcileResult appointments latestBreaks)).find?
          (overlapsGapB g.1 g.2) = some x
      ∧ exactSpanB g x := by
  intro g hg
  rcases reconcileResult_filter_singleton appointments latestBreaks hA hGap hB
    hNodup hM1 hM2 g hg with ⟨x, hfilter, hspan⟩
  have hxres : x ∈ reconcileResult appointments latestBreaks := by
    have : x ∈ (reconcileResult appointments latestBreaks).filter
        (fun b => overlapsGapB g.1 g.2 b) := by
      rw [hfilter]
      exact List.mem_singleton.mpr rfl
    exact List.mem_of_mem_filter this
  have hxovl : overlapsGapB g.1 g.2 x = true := by
    have : x ∈ (reconcileResult appointments latestBreaks).filter
        (fun b => overlapsGapB g.1 g.2 b) := by
      rw [hfilter]
      exact List.mem_singleton.mpr rfl
    exact List.of_mem_filter this
  have hxS : x ∈ sortBreaks (reconcileResult appointments latestBreaks) := by
    unfold sortBreaks
    exact (mem_sortByStart _ _ _).mpr hxres
  rcases hfind : (sortBreaks (reconcileResult appointments latestBreaks)).find?
      (overlapsGapB g.1 g.2) with _ | y
  · exact absurd hxovl (List.find?_eq_none.mp hfind x hxS)
  · have hy : y ∈ reconcileResult appointments latestBreaks := by
      have := List.mem_of_find?_eq_some hfind
      unfold sortBreaks at this
      exact (mem_sortByStart _ _ _).mp this
    have hyovl : overlapsGapB g.1 g.2 y = true := List.find?_some hfind
    have hyx : y = x := by
      have hyf : y ∈ (reconcileResult appointments latestBreaks).filter
          (fun b => overlapsGapB g.1 g.2 b) := List.mem_filter.mpr ⟨hy, hyovl⟩
      rw [hfilter] at hyf
      exact List.mem_singleton.mp hyf
    exact ⟨x, by rw [hyx], hspan⟩

/-- C7 (amended): under the same snapshot hypotheses as the amended C1 (well
formed break rows with distinct ids, whole-minute legitimate gaps, and an
at-most-one overlap matching between breaks and legitimate gaps), a second
pass of the reconciler on the refetched table emits no create, update or
delete; in particular a break already exactly spanning its gap is left
untouched. Without the matching hypothesis the claim fails: a break spanning
two gaps receives two updates (the second wins) and the second pass then
creates a break for the first gap (see the counterexample). -/
theorem C7_idempotence_amended (appointments : List Appointment)
    (latestBreaks : List Break)
    (hA : ∀ a ∈ appointments, a.start_time ≤ a.end_time)
    (hGap : ∀ g ∈ legitGaps appointments, (60000 : Int) ∣ (g.2 - g.1))
    (hB : ∀ b ∈ latestBreaks, brkWf b ∧ 0 ≤ b.duration_minutes)
    (hNodup : (latestBreaks.map Break.id).Nodup)
    (hM1 : ∀ b ∈ latestBreaks,
      ((legitGaps appointments).filter (fun g => overlapsGapB g.1 g.2 b)).length ≤ 1)
    (hM2 : ∀ g ∈ legitGaps appointments,
      (latestBreaks.filter (fun b => overlapsGapB g.1 g.2 b)).length ≤ 1) :
    secondPassOps appointments latestBreaks = noReconcileOps := by
  have hfind := sortBreaks_find?_exact appointments latestBreaks hA hGap hB
    hNodup hM1 hM2
  have hspanall : ∀ x ∈ sortBreaks (reconcileResult appointments latestBreaks),
      ∃ g ∈ legitGaps appointments, exactSpanB g x := by
    intro x hx
    unfold sortBreaks at hx
    exact reconcileResult_exactSpan appointments latestBreaks hGap hB hNodup hM2
      x ((mem_sortByStart _ _ _).mp hx)
  unfold secondPassOps reconcileOps noReconcileOps
  have hcreates : breaksToCreate appointments
      (sortBreaks (reconcileResult appointments latestBreaks)) = [] := by
    unfold breaksToCreate
    rw [List.filterMap_eq_nil_iff]
    intro g hg
    rcases hfind g hg with ⟨x, hx, _⟩
    rw [hx]
  have hupdates : breaksToUpdate appointments
      (sortBreaks (reconcileResult appointments latestBreaks)) = [] := by
    unfold breaksToUpdate
    rw [List.filterMap_eq_nil_iff]
    intro g hg
    rcases hfind g hg with ⟨x, hx, hspan⟩
    rw [hx]
    dsimp only
    rw [if_neg]
    push_neg
    exact ⟨hspan.1, hspan.2.1⟩
  have hdeletes : breaksToDelete appointments
      (sortBreaks (reconcileResult appointments latestBreaks)) = [] := by
    unfold breaksToDelete
    have : (sortBreaks (reconcileResult appointments latestBreaks)).filter
        (fun b => !((breaksToUpdate appointments
            (sortBreaks (reconcileResult appointments latestBreaks))).map
              BreakUpdate.id).contains b.id
          && !(isLegitimateBreak appointments b)) = [] := by
      rw [List.filter_eq_nil_iff]
      intro b hb
      rcases hspanall b hb with ⟨g, hg, hspan⟩
      have hleg : isLegitimateBreak appointments b = true := by
        rw [isLegitimateBreak_iff]
        exact ⟨g, hg, le_of_eq hspan.1.symm, le_of_eq hspan.2.2⟩
      rw [Bool.and_eq_true, hleg]
      intro hcon
      exact absurd hcon.2 (by decide)
    dsimp only
    rw [this]
    rfl
  rw [hcreates, hupdates, hdeletes]

/-- C7 witness: the amended idempotence at a concrete snapshot: appointments
at 9:00-9:45 and 10:00-10:30 with one short break in the gap produce zero
mutations on the second pass. -/
theorem C7_idempotence_witness :
    secondPassOps
        [{ id := 1, start_time := hm 9 0, duration_minutes := 45, end_time := hm 9 45 },
         { id := 2, start_time := hm 10 0, duration_minutes := 30, end_time := hm 10 30 }]
        [{ id := 11, start_time := hm 9 45, duration_minutes := 5, end_time := hm 9 50 }]
      = noReconcileOps :=
  C7_idempotence_amended
    [{ id := 1, start_time := hm 9 0, duration_minutes := 45, end_time := hm 9 45 },
     { id := 2, start_time := hm 10 0, duration_minutes := 30, end_time := hm 10 30 }]
    [{ id := 11, start_time := hm 9 45, duration_minutes := 5, end_time := hm 9 50 }]
    (by decide) (by decide) (by decide) (by decide) (by decide) (by decide)

/-- C7 counterexample: three appointments with two 10-minute gaps and a break
spanning the middle appointment. The first pass emits two updates for the
same break (one per gap); applying them sequentially leaves the break in the
second gap only, and the second pass then emits a create for the first gap:
the second pass is not mutation-free. -/
theorem C7_counterexample :
    secondPassOps
        [{ id := 1, start_time := hm 9 0, duration_minutes := 10, end_time := hm 9 10 },
         { id := 2, start_time := hm 9 20, duration_minutes := 10, end_time := hm 9 30 },
         { id := 3, start_time := hm 9 40, duration_minutes := 10, end_time := hm 9 50 }]
        [{ id := 21, start_time := hm 9 15, duration_minutes := 30, end_time := hm 9 45 }]
      ≠ noReconcileOps
    ∧ (secondPassOps
        [{ id := 1, start_time := hm 9 0, duration_minutes := 10, end_time := hm 9 10 },
         { id := 2, start_time := hm 9 20, duration_minutes := 10, end_time := hm 9 30 },
         { id := 3, start_time := hm 9 40, duration_minutes := 10, end_time := hm 9 50 }]
        [{ id := 21, start_time := hm 9 15, duration_minutes := 30, end_time := hm 9 45 }]).creates.length
      = 1 := by
  constructor
  · decide
  · decide
